import Mathlib

/-!
# Verification of the durable-execution checkpoint core

A shallow embedding, in Lean 4, of the checkpoint orchestration engine of
the `durable-x` repository (TypeScript): the fingerprint function
(`src/hash.ts`), the pure checkpoint model (`src/checkpoint.ts`), the
cleanup executor (`src/cleanup.ts`) and the orchestration API
(`src/api.ts`), together with proofs and refutations of the stated
properties of the specification.

Modelling conventions, used throughout:

* JavaScript structured values (the `unknown` payloads fed to the
  fingerprint function, step results, cleanup parameters) are modelled by
  the inductive type `JValue` of JSON values; numbers are modelled by
  `Int` (the repository only ever stores timestamps and structured data,
  never fractional values whose float behaviour would matter).
* JavaScript objects (`Record<string, T>`) are modelled as association
  lists `List (String × T)` in insertion order, mirroring the object's
  own key order; real JS objects never carry a duplicate key, which the
  theorems record as an explicit `Nodup` hypothesis where it matters.
* `Date.now()` and `crypto.randomUUID()` are ambient effects; every
  function of the source that consumes them takes the sampled value
  (`now`, `uuid`) as an explicit extra argument.
* A JavaScript promise that can reject is modelled as `Except String α`;
  a promise chain is the corresponding `do`/`bind` chain.  Logging
  (`src/log.ts`) passes values through unchanged and is dropped.
* The storage adapter is external to the core (spec §6); it is modelled
  as an in-memory keyed list with exactly the operations and query
  semantics the spec gives for the adapter contract, which also matches
  the mock adapter of `src/api.spec.ts`.
-/

namespace DurableX

/-- JSON-like structured values: the model of the `unknown` payloads the
core hashes, stores as step results and passes to cleanup runners.
Objects are association lists in key insertion order. -/
inductive JValue : Type where
  | jnull : JValue
  | jbool : Bool → JValue
  | jnum : Int → JValue
  | jstr : String → JValue
  | jarr : List JValue → JValue
  | jobj : List (String × JValue) → JValue

open JValue

/-! ## Association-list primitives (JS `Record` access) -/

/-- Model of `obj[k]` property lookup on a JS object modelled as an assoc list. -/
def lookupField {α : Type} : List (String × α) → String → Option α
  | [], _ => none
  | (k', v) :: r, k => if k' = k then some v else lookupField r k

/-- Model of `{...obj, [k]: v}`: replaces the value in place when the key exists
(JS spread keeps the first occurrence's position), appends otherwise. -/
def setField {α : Type} : List (String × α) → String → α → List (String × α)
  | [], k, v => [(k, v)]
  | (k', v') :: r, k, v => if k' = k then (k, v) :: r else (k', v') :: setField r k v

/-- Model of `const { [k]: _removed, ...rest } = obj`: drops the property named `k`. -/
def eraseField {α : Type} (l : List (String × α)) (k : String) : List (String × α) :=
  l.filter (fun p => p.1 != k)

/-! ## `src/hash.ts` — the fingerprint function

`sortKeys` sorts object keys with JavaScript's default `Array.sort`,
which compares strings lexicographically by code unit.  We model the
comparison as lexicographic order on the characters of the key (code
points); the two agree on every string free of astral-plane characters. -/

/-- Lexicographic `≤` on character lists by code point (the model of the
string comparison JavaScript's default `Array.sort` performs on keys). -/
def lexLeChars : List Char → List Char → Bool
  | [], _ => true
  | _ :: _, [] => false
  | x :: xs, y :: ys =>
    if x.toNat < y.toNat then true
    else if y.toNat < x.toNat then false
    else lexLeChars xs ys

/-- Key order on object fields: compare the keys, ignore the values. -/
def keyLE (p q : String × JValue) : Prop := lexLeChars p.1.data q.1.data = true

instance : DecidableRel keyLE := fun _p _q => inferInstanceAs (Decidable (_ = true))

/-- Strict key order: `keyLE` together with distinct keys. -/
def keyLT (p q : String × JValue) : Prop := keyLE p q ∧ p.1 ≠ q.1

mutual

/-- Model of `sortKeys` of `src/hash.ts`: recursively rewrites a value so that
every object has its fields in sorted key order; arrays are recursed
into but never reordered; primitives pass through.  The source sorts the
keys of an object and then recurses into its values; since the sort
compares keys only and the recursion preserves keys, sorting after the
recursion (as written here, to keep the recursion structural) produces
the same value — `sortKeys_fields_commute` below proves that reading. -/
def sortKeys : JValue → JValue
  | jnull => jnull
  | jbool b => jbool b
  | jnum n => jnum n
  | jstr s => jstr s
  | jarr xs => jarr (sortKeysList xs)
  | jobj fs => jobj (List.insertionSort keyLE (sortKeysFields fs))

/-- Model of `obj.map(sortKeys)` over the elements of an array. -/
def sortKeysList : List JValue → List JValue
  | [] => []
  | x :: xs => sortKeys x :: sortKeysList xs

/-- Recursion of `sortKeys` into the values of an object's fields. -/
def sortKeysFields : List (String × JValue) → List (String × JValue)
  | [] => []
  | (k, v) :: fs => (k, sortKeys v) :: sortKeysFields fs

end

/-- The UTF-16 code unit `String(x).charCodeAt(0)` yields for a code
point: the point itself in the BMP, the high surrogate otherwise
(`Array.from` splits a JS string into code points first). -/
def charCode (c : Char) : Nat :=
  if c.toNat < 65536 then c.toNat else 55296 + (c.toNat - 65536) / 1024

/-- Decimal digit character. -/
def digitChar (d : Nat) : Char := Char.ofNat (48 + d)

/-- Hex digit character, lowercase (as in JS `\u00xx` escapes). -/
def hexCharOf (d : Nat) : Char :=
  if d < 10 then Char.ofNat (48 + d) else Char.ofNat (87 + d)

/-- Decimal digits of `n`, most significant first; fuel-structural so the
kernel can evaluate it (`natToChars` supplies ample fuel). -/
def natToCharsGo : Nat → Nat → List Char
  | 0, _ => []
  | f + 1, n =>
    if n < 10 then [digitChar n] else natToCharsGo f (n / 10) ++ [digitChar (n % 10)]

/-- Decimal rendering of a natural number, e.g. `natToChars 120 = "120".data`. -/
def natToChars (n : Nat) : List Char := natToCharsGo (n + 1) n

/-- Decimal rendering of an integer (a minus sign, then the digits). -/
def intToChars (n : Int) : List Char :=
  if n < 0 then '-' :: natToChars n.natAbs else natToChars n.toNat

/-- Model of `JSON.stringify`'s escaping of one string character: `\"`, `\\`, and
`\u00xx` for control characters (the source's builtin also shortens five
of the control escapes to `\b \t \n \f \r`; both render an escape that
`JSON.parse` reads back as the same character). -/
def escChar (c : Char) : List Char :=
  if c = '"' then ['\\', '"']
  else if c = '\\' then ['\\', '\\']
  else if c.toNat < 32 then
    let hi := hexCharOf (c.toNat / 16)
    let lo := hexCharOf (c.toNat % 16)
    '\\' :: 'u' :: '0' :: '0' :: hi :: [lo]
  else [c]

/-- Escaping of a whole string body. -/
def escChars : List Char → List Char
  | [] => []
  | c :: cs => escChar c ++ escChars cs

mutual

/-- Model of `JSON.stringify`, the serialized text as a character list: `null`,
`true`/`false`, decimal integers, quoted-and-escaped strings,
`[`/`]`-wrapped comma-separated arrays, `{`/`}`-wrapped objects with
`"key":value` fields in the object's own field order. -/
def stringifyChars : JValue → List Char
  | jnull => "null".data
  | jbool true => "true".data
  | jbool false => "false".data
  | jnum n => intToChars n
  | jstr s => '"' :: escChars s.data ++ ['"']
  | jarr xs => '[' :: stringifyElems xs ++ [']']
  | jobj fs => '{' :: stringifyFields fs ++ ['}']

/-- Array elements, comma separated. -/
def stringifyElems : List JValue → List Char
  | [] => []
  | [x] => stringifyChars x
  | x :: xs => stringifyChars x ++ ',' :: stringifyElems xs

/-- Object fields, comma separated, each `"key":value`. -/
def stringifyFields : List (String × JValue) → List Char
  | [] => []
  | [(k, v)] => '"' :: escChars k.data ++ '"' :: ':' :: stringifyChars v
  | (k, v) :: fs =>
    ('"' :: escChars k.data ++ '"' :: ':' :: stringifyChars v) ++ ',' :: stringifyFields fs

end

/-- Model of `JSON.stringify` as a string. -/
def stringify (v : JValue) : String := String.mk (stringifyChars v)

/-- Wrap an integer to JavaScript's signed 32-bit range (`| 0`, and the
wrap-around of `<< 5`). -/
def toInt32 (n : Int) : Int := (n + 2 ^ 31) % 2 ^ 32 - 2 ^ 31

/-- One step of the rolling accumulation
`(h << 5) - h + c.charCodeAt(0)) | 0` of `src/hash.ts`: the shift wraps
to 32 bits, the subtraction and addition are exact, `| 0` wraps again. -/
def hashStep (h : Int) (c : Char) : Int :=
  toInt32 (toInt32 (h * 32) - h + charCode c)

/-- The rolling 32-bit accumulator over the serialized text. -/
def rollingHash (cs : List Char) : Int := cs.foldl hashStep 0

/-- Base-36 digits of a natural number, most significant first
(fuel-structural; `natTo36` supplies ample fuel). -/
def natTo36Go : Nat → Nat → List Char
  | 0, _ => []
  | f + 1, n =>
    if n < 36 then [hexCharOf n] else natTo36Go f (n / 36) ++ [hexCharOf (n % 36)]

/-- Model of `Number.prototype.toString(36)` for naturals: lowercase base-36. -/
def natTo36 (n : Nat) : List Char := natTo36Go (n + 1) n

/-- Model of `Number.prototype.toString(36)` for integers: sign, then digits. -/
def intTo36 (n : Int) : String :=
  if n < 0 then String.mk ('-' :: natTo36 n.natAbs) else String.mk (natTo36 n.toNat)

/-- Model of `hash` of `src/hash.ts`: canonicalize with `sortKeys`, serialize with
`JSON.stringify`, reduce the text with the rolling 32-bit accumulation,
render the accumulator in base 36. -/
def hash (input : JValue) : String :=
  intTo36 (rollingHash (stringifyChars (sortKeys input)))

/-! ## `src/types.ts` — the domain types -/

/-- Model of `CheckpointStatus`: `'running' | 'completed' | 'failed'`. -/
inductive Status : Type where
  | running : Status
  | completed : Status
  | failed : Status
  deriving DecidableEq

/-- Model of `StepRecord`: the memo of one completed step. -/
structure StepRecord : Type where
  result : JValue
  inputHash : String
  completedAt : Int

/-- Model of `CleanupAction`: one registered compensation. -/
structure CleanupAction : Type where
  id : String
  type : String
  params : List (String × JValue)
  registeredAt : Int

/-- Model of `Checkpoint`: the durable state of one run. -/
structure Checkpoint : Type where
  fileId : String
  startedAt : Int
  completedAt : Option Int
  status : Status
  steps : List (String × StepRecord)
  cleanup : List CleanupAction

/-- Model of `CleanupSpec`: the type/params pair `beforeRisky` registers. -/
structure CleanupSpec : Type where
  type : String
  params : List (String × JValue)

/-- Model of `CacheCheck<T>`: `{hit: true, result}` or `{hit: false}`. -/
inductive CacheCheck : Type where
  | hit (result : JValue) : CacheCheck
  | miss : CacheCheck

/-! ## `src/checkpoint.ts` — pure checkpoint transforms -/

/-- Model of `emptyCheckpoint`: a fresh Running checkpoint (`Date.now()` passed as
`now`). -/
def emptyCheckpoint (fileId : String) (now : Int) : Checkpoint :=
  { fileId := fileId
    startedAt := now
    completedAt := none
    status := Status.running
    steps := []
    cleanup := [] }

/-- Model of `checkCache`: `step?.inputHash === inputHash` — a hit exactly when
the record exists and its stored hash equals the probe (when `step` is
`undefined`, `undefined === inputHash` is false for every string). -/
def checkCache (step : Option StepRecord) (inputHash : String) : CacheCheck :=
  match step with
  | some s => if s.inputHash = inputHash then CacheCheck.hit s.result else CacheCheck.miss
  | none => CacheCheck.miss

/-- Model of `withStep`: insert or overwrite `steps[name]` with
`{result, inputHash, completedAt: Date.now()}`. -/
def withStep (cp : Checkpoint) (name : String) (result : JValue) (inputHash : String)
    (now : Int) : Checkpoint :=
  { cp with steps := setField cp.steps name ⟨result, inputHash, now⟩ }

/-- Model of `withCleanup`: append a new action with id
`` `${action.type}-${crypto.randomUUID()}` `` (the sampled UUID passed as
`uuid`) and `registeredAt = Date.now()`. -/
def withCleanup (cp : Checkpoint) (action : CleanupSpec) (uuid : String) (now : Int) :
    Checkpoint :=
  { cp with
    cleanup := cp.cleanup ++ [⟨action.type ++ "-" ++ uuid, action.type, action.params, now⟩] }

/-- Model of `withoutCleanup`: drop every action whose `type` matches. -/
def withoutCleanup (cp : Checkpoint) (type : String) : Checkpoint :=
  { cp with cleanup := cp.cleanup.filter (fun c => c.type != type) }

/-- Model of `withStatus`: set `status`; `completedAt` becomes `null` when the new
status is `running` and `Date.now()` otherwise. -/
def withStatus (cp : Checkpoint) (status : Status) (now : Int) : Checkpoint :=
  { cp with
    status := status
    completedAt := if status = Status.running then none else some now }

/-- Model of `withoutStep`: remove `steps[name]` (a no-op when absent). -/
def withoutStep (cp : Checkpoint) (name : String) : Checkpoint :=
  { cp with steps := eraseField cp.steps name }

/-! ## `JSON.parse` — the read-side inverse of the serializer

`rowToCheckpoint` runs `JSON.parse` on text-encoded `steps`/`cleanup`
columns.  The builtin is modelled by a fuel-indexed recursive-descent
reader of the grammar the serializer above emits (fuel makes the
recursion structural; `jsonParse` supplies ample fuel).  A failure of
the builtin (a throw on malformed text) is the `none` value. -/

/-- Is `c` a decimal digit? -/
def isDigitChar (c : Char) : Bool := 48 ≤ c.toNat && c.toNat ≤ 57

/-- Numeric value of a hex digit, upper or lower case. -/
def hexValOf (c : Char) : Option Nat :=
  if 48 ≤ c.toNat && c.toNat ≤ 57 then some (c.toNat - 48)
  else if 97 ≤ c.toNat && c.toNat ≤ 102 then some (c.toNat - 87)
  else if 65 ≤ c.toNat && c.toNat ≤ 70 then some (c.toNat - 55)
  else none

/-- Numeric value of a digit run (most significant first). -/
def digitsVal (cs : List Char) : Nat := cs.foldl (fun acc c => 10 * acc + (c.toNat - 48)) 0

/-- Read a digit run as a natural number; fails on an empty run. -/
def parseNatChars (s : List Char) : Option (Nat × List Char) :=
  let digs := s.takeWhile isDigitChar
  if digs.length = 0 then none
  else some (digitsVal digs, s.dropWhile isDigitChar)

/-- Read an optionally signed decimal integer. -/
def parseIntChars (s : List Char) : Option (Int × List Char) :=
  match s with
  | [] => none
  | c :: r =>
    if c = '-' then (parseNatChars r).map (fun p => (-(p.1 : Int), p.2))
    else (parseNatChars (c :: r)).map (fun p => ((p.1 : Int), p.2))

/-- Read the body of a quoted string after the opening quote, undoing
the escapes; returns the content and the text after the closing quote. -/
def parseStringRest : List Char → Option (List Char × List Char)
  | [] => none
  | c :: r =>
    if c = '"' then some ([], r)
    else if c = '\\' then
      match r with
      | 'u' :: h1 :: h2 :: h3 :: h4 :: r2 =>
        match hexValOf h1, hexValOf h2, hexValOf h3, hexValOf h4 with
        | some v1, some v2, some v3, some v4 =>
          let n := 4096 * v1 + 256 * v2 + 16 * v3 + v4
          if _h : n.isValidChar then
            (parseStringRest r2).map (fun p => (Char.ofNat n :: p.1, p.2))
          else none
        | _, _, _, _ => none
      | e :: r2 =>
        if e = '"' then (parseStringRest r2).map (fun p => ('"' :: p.1, p.2))
        else if e = '\\' then (parseStringRest r2).map (fun p => ('\\' :: p.1, p.2))
        else if e = '/' then (parseStringRest r2).map (fun p => ('/' :: p.1, p.2))
        else if e = 'b' then (parseStringRest r2).map (fun p => (Char.ofNat 8 :: p.1, p.2))
        else if e = 't' then (parseStringRest r2).map (fun p => (Char.ofNat 9 :: p.1, p.2))
        else if e = 'n' then (parseStringRest r2).map (fun p => (Char.ofNat 10 :: p.1, p.2))
        else if e = 'f' then (parseStringRest r2).map (fun p => (Char.ofNat 12 :: p.1, p.2))
        else if e = 'r' then (parseStringRest r2).map (fun p => (Char.ofNat 13 :: p.1, p.2))
        else none
      | [] => none
    else (parseStringRest r).map (fun p => (c :: p.1, p.2))

mutual

/-- Read one JSON value. -/
def parseVal : Nat → List Char → Option (JValue × List Char)
  | 0, _ => none
  | f + 1, s =>
    match s with
    | [] => none
    | c :: r =>
      if c = 'n' then
        match r with
        | 'u' :: 'l' :: 'l' :: r2 => some (jnull, r2)
        | _ => none
      else if c = 't' then
        match r with
        | 'r' :: 'u' :: 'e' :: r2 => some (jbool true, r2)
        | _ => none
      else if c = 'f' then
        match r with
        | 'a' :: 'l' :: 's' :: 'e' :: r2 => some (jbool false, r2)
        | _ => none
      else if c = '"' then (parseStringRest r).map (fun p => (jstr (String.mk p.1), p.2))
      else if c = '[' then
        if r.head? = some ']' then some (jarr [], r.tail)
        else (parseElems f r).map (fun p => (jarr p.1, p.2))
      else if c = '{' then
        if r.head? = some '}' then some (jobj [], r.tail)
        else (parseFields f r).map (fun p => (jobj p.1, p.2))
      else (parseIntChars (c :: r)).map (fun p => (jnum p.1, p.2))

/-- Read the elements of a non-empty array body up to and including the
closing bracket. -/
def parseElems : Nat → List Char → Option (List JValue × List Char)
  | 0, _ => none
  | f + 1, s =>
    (parseVal f s).bind (fun p =>
      match p.2 with
      | ',' :: r' => (parseElems f r').map (fun q => (p.1 :: q.1, q.2))
      | ']' :: r' => some ([p.1], r')
      | _ => none)

/-- Read the fields of a non-empty object body up to and including the
closing brace. -/
def parseFields : Nat → List Char → Option (List (String × JValue) × List Char)
  | 0, _ => none
  | f + 1, s =>
    match s with
    | '"' :: r =>
      (parseStringRest r).bind (fun kp =>
        match kp.2 with
        | ':' :: r2 =>
          (parseVal f r2).bind (fun vp =>
            match vp.2 with
            | ',' :: r4 => (parseFields f r4).map (fun q => ((String.mk kp.1, vp.1) :: q.1, q.2))
            | '}' :: r4 => some ([(String.mk kp.1, vp.1)], r4)
            | _ => none)
        | _ => none)
    | _ => none

end

/-- Model of `JSON.parse`: read one value consuming the whole text. -/
def jsonParse (s : String) : Option JValue :=
  match parseVal (s.data.length + 1) s.data with
  | some (v, []) => some v
  | _ => none

/-! ## Row encoding (`rowToCheckpoint` / `checkpointToRow`) -/

/-- A `steps`/`cleanup` column as it arrives from a record store: already
structured (e.g. a JSONB column), serialized text, or absent. -/
inductive JsonField (α : Type) : Type where
  | text (s : String) : JsonField α
  | strukt (v : α) : JsonField α
  | absent : JsonField α

/-- The flat row representation at the storage boundary.  `file_id`,
`started_at`, `completed_at` and `status` are passed through by both
transforms (the source's `as CheckpointStatus` cast converts nothing),
so the row carries them at their checkpoint types. -/
structure Row : Type where
  file_id : String
  started_at : Int
  completed_at : Option Int
  status : Status
  steps : JsonField (List (String × StepRecord))
  cleanup : JsonField (List CleanupAction)

/-- A `StepRecord` as the JSON value `JSON.stringify` serializes
(field order as in the object literal of `withStep`). -/
def stepRecordToJValue (r : StepRecord) : JValue :=
  jobj [("result", r.result), ("inputHash", jstr r.inputHash), ("completedAt", jnum r.completedAt)]

/-- The `steps` record as a JSON object. -/
def stepsToJValue (steps : List (String × StepRecord)) : JValue :=
  jobj (steps.map (fun p => (p.1, stepRecordToJValue p.2)))

/-- A `CleanupAction` as the JSON value `JSON.stringify` serializes
(field order as the spread in `withCleanup` builds it). -/
def cleanupActionToJValue (a : CleanupAction) : JValue :=
  jobj [("type", jstr a.type), ("params", jobj a.params), ("id", jstr a.id),
    ("registeredAt", jnum a.registeredAt)]

/-- The `cleanup` list as a JSON array. -/
def cleanupToJValue (cleanup : List CleanupAction) : JValue :=
  jarr (cleanup.map cleanupActionToJValue)

/-- Read a parsed JSON value back as a `StepRecord` (the property
accesses behind the source's `as Record<string, StepRecord>` cast). -/
def decodeStepRecord (v : JValue) : Option StepRecord :=
  match v with
  | jobj fs =>
    match lookupField fs "result", lookupField fs "inputHash", lookupField fs "completedAt" with
    | some r, some (jstr h), some (jnum t) => some ⟨r, h, t⟩
    | _, _, _ => none
  | _ => none

/-- Element-wise decoding of the fields of the `steps` object. -/
def decodeStepsGo : List (String × JValue) → Option (List (String × StepRecord))
  | [] => some []
  | p :: tl =>
    (decodeStepRecord p.2).bind (fun r => (decodeStepsGo tl).map (fun rest => (p.1, r) :: rest))

/-- Read a parsed JSON value back as the `steps` record. -/
def decodeSteps (v : JValue) : Option (List (String × StepRecord)) :=
  match v with
  | jobj fs => decodeStepsGo fs
  | _ => none

/-- Read a parsed JSON value back as a `CleanupAction`. -/
def decodeCleanupAction (v : JValue) : Option CleanupAction :=
  match v with
  | jobj fs =>
    match lookupField fs "id", lookupField fs "type", lookupField fs "params",
        lookupField fs "registeredAt" with
    | some (jstr i), some (jstr t), some (jobj ps), some (jnum at_) => some ⟨i, t, ps, at_⟩
    | _, _, _, _ => none
  | _ => none

/-- Element-wise decoding of the `cleanup` array. -/
def decodeCleanupGo : List JValue → Option (List CleanupAction)
  | [] => some []
  | x :: tl =>
    (decodeCleanupAction x).bind (fun a => (decodeCleanupGo tl).map (fun rest => a :: rest))

/-- Read a parsed JSON value back as the `cleanup` list. -/
def decodeCleanup (v : JValue) : Option (List CleanupAction) :=
  match v with
  | jarr xs => decodeCleanupGo xs
  | _ => none

/-- Model of `rowToCheckpoint`: scalar columns pass through; `steps`/`cleanup`
are `JSON.parse`d when they arrive as text, taken as-is when already
structured, and default to `{}`/`[]` when absent.  `none` models the
throw of `JSON.parse` on malformed text (never hit on encoded rows). -/
def rowToCheckpoint (row : Row) : Option Checkpoint := do
  let steps ← match row.steps with
    | JsonField.text s => (jsonParse s).bind decodeSteps
    | JsonField.strukt v => some v
    | JsonField.absent => some []
  let cleanup ← match row.cleanup with
    | JsonField.text s => (jsonParse s).bind decodeCleanup
    | JsonField.strukt v => some v
    | JsonField.absent => some []
  some ⟨row.file_id, row.started_at, row.completed_at, row.status, steps, cleanup⟩

/-- Model of `checkpointToRow`: scalar columns pass through; `steps` and
`cleanup` are `JSON.stringify`d. -/
def checkpointToRow (cp : Checkpoint) : Row :=
  { file_id := cp.fileId
    started_at := cp.startedAt
    completed_at := cp.completedAt
    status := cp.status
    steps := JsonField.text (stringify (stepsToJValue cp.steps))
    cleanup := JsonField.text (stringify (cleanupToJValue cp.cleanup)) }

/-! ## `src/cleanup.ts` — the cleanup executor -/

/-- Model of `CleanupRunner`: an asynchronous runner that may reject. -/
abbrev Runner : Type := List (String × JValue) → Except String Unit

/-- Model of `CleanupRegistry`: action type → runner. -/
abbrev Registry : Type := List (String × Runner)

/-- What happened to one action: ran and resolved (`logCleanup` fired),
ran and rejected (caught; `console.error` with the wrapped message), or
was skipped for lack of a registered runner (`console.warn`). -/
inductive CleanupOutcome : Type where
  | executed : CleanupOutcome
  | failed (msg : String) : CleanupOutcome
  | skipped (msg : String) : CleanupOutcome
  deriving DecidableEq

/-- One line of the executor's trace: the action and its outcome. -/
structure ExecEntry : Type where
  action : CleanupAction
  outcome : CleanupOutcome

/-- Model of `executeCleanup`: look the runner up; warn and skip when absent;
otherwise run it with `ResultAsync.fromPromise` catching a rejection
into an error value that is only logged.  Every branch resolves: the
`Except` layer is the promise this async function returns. -/
def executeCleanup (runners : Registry) (a : CleanupAction) : Except String ExecEntry :=
  match lookupField runners a.type with
  | none => Except.ok ⟨a, CleanupOutcome.skipped ("⚠️ [" ++ a.type ++ "] no cleanup runner registered")⟩
  | some runner =>
    match runner a.params with
    | Except.ok _ => Except.ok ⟨a, CleanupOutcome.executed⟩
    | Except.error e =>
      Except.ok ⟨a, CleanupOutcome.failed ("[" ++ a.type ++ "] cleanup failed: " ++ toString e)⟩

/-- The entry `executeCleanup` resolves with, as a pure function of the
registry and the action (it is what every branch of `executeCleanup`
wraps in `Except.ok`). -/
def cleanupEntry (runners : Registry) (a : CleanupAction) : ExecEntry :=
  match lookupField runners a.type with
  | none => ⟨a, CleanupOutcome.skipped ("⚠️ [" ++ a.type ++ "] no cleanup runner registered")⟩
  | some runner =>
    match runner a.params with
    | Except.ok _ => ⟨a, CleanupOutcome.executed⟩
    | Except.error e =>
      ⟨a, CleanupOutcome.failed ("[" ++ a.type ++ "] cleanup failed: " ++ toString e)⟩

/-- Model of `executeAllCleanups`: `Promise.all` over the per-action executor
(rejecting iff some member rejects), then discard to `void` — the trace
of entries is kept here as the model's observable. -/
def executeAllCleanups (runners : Registry) (actions : List CleanupAction) :
    Except String (List ExecEntry) :=
  match actions with
  | [] => Except.ok []
  | a :: tl =>
    (executeCleanup runners a).bind
      (fun e => (executeAllCleanups runners tl).map (fun rest => e :: rest))

/-! ## The storage adapter (external collaborator, spec §6) -/

/-- Durable key-value persistence for checkpoints keyed by run id,
modelled as an in-memory keyed list (matching the mock adapter of
`src/api.spec.ts` and the adapter contract of spec §6). -/
abbrev Store : Type := List (String × Checkpoint)

/-- Model of `upsert`: durable write, idempotent by run id. -/
def upsert (store : Store) (cp : Checkpoint) : Store := setField store cp.fileId cp

/-- Model of `fetchOne`: the checkpoint stored under the id, or absent. -/
def fetchOne (store : Store) (fileId : String) : Option Checkpoint := lookupField store fileId

/-- All stored checkpoints. -/
def storeValues (store : Store) : List Checkpoint := store.map Prod.snd

/-- Model of `fetchStale`: every Running checkpoint whose `startedAt` is older
than `now - thresholdMs`. -/
def fetchStale (store : Store) (now thresholdMs : Int) : List Checkpoint :=
  (storeValues store).filter
    (fun cp => decide (cp.status = Status.running ∧ cp.startedAt < now - thresholdMs))

/-- Model of `fetchPendingCleanups`: every checkpoint with a non-empty cleanup
list, regardless of status. -/
def fetchPendingCleanups (store : Store) : List Checkpoint :=
  (storeValues store).filter (fun cp => cp.cleanup.length != 0)

/-- Model of `deleteOne`. -/
def deleteOne (store : Store) (fileId : String) : Store :=
  store.filter (fun p => p.1 != fileId)

/-! ## `src/api.ts` — the orchestration API -/

/-- What `load` resolves with: the adopted checkpoint, the store after
the final `upsert`, and the executor trace of the recovery pass (empty
when no recovery ran). -/
structure LoadResult : Type where
  cp : Checkpoint
  store : Store
  executed : List ExecEntry

/-- Model of `load`: fetch or create, run the crash-recovery pass when the
fetched checkpoint has pending cleanup actions (execute them all, then
reset `cleanup`/`startedAt`/`status` — the source leaves `completedAt`
untouched here), and persist the result in every branch. -/
def load (store : Store) (runners : Registry) (fileId : String) (now : Int) :
    Except String LoadResult := do
  let cp0 := (fetchOne store fileId).getD (emptyCheckpoint fileId now)
  if cp0.cleanup.length = 0 then
    pure ⟨cp0, upsert store cp0, []⟩
  else do
    let log ← executeAllCleanups runners cp0.cleanup
    let cp1 : Checkpoint := { cp0 with cleanup := [], startedAt := now, status := Status.running }
    pure ⟨cp1, upsert store cp1, log⟩

/-- What an orchestration call resolves with: the returned (updated)
checkpoint, the value the caller's `cp` binding holds after the call
(`Object.assign(cp, updated)` where the source performs it, the
original value where it does not), and the store after the persist. -/
structure OpResult : Type where
  cp : Checkpoint
  adopted : Checkpoint
  store : Store

/-- Model of `beforeRisky`: persist `withCleanup(cp, {type, params})`, then
`Object.assign` the updated checkpoint onto the caller's `cp`. -/
def beforeRisky (store : Store) (cp : Checkpoint) (type : String)
    (params : List (String × JValue)) (uuid : String) (now : Int) : OpResult :=
  let updated := withCleanup cp ⟨type, params⟩ uuid now
  ⟨updated, updated, upsert store updated⟩

/-- Model of `afterSafe`: persist `withoutCleanup(cp, type)`, then `Object.assign`
onto the caller's `cp`. -/
def afterSafe (store : Store) (cp : Checkpoint) (type : String) : OpResult :=
  let updated := withoutCleanup cp type
  ⟨updated, updated, upsert store updated⟩

/-- What the memoized-step call resolves with: the step's result, the
checkpoint the call returns control with, the caller's `cp` after the
call, the store, and whether `fn` was invoked / an `upsert` performed. -/
structure StepResult : Type where
  result : JValue
  cp : Checkpoint
  adopted : Checkpoint
  store : Store
  invokedFn : Bool
  persisted : Bool

/-- Model of `durable` (the Step operation): fingerprint the inputs, check the
cache against `cp.steps[name]`; on a hit resolve with the cached result
(no `fn`, no persist, no `Object.assign`); on a miss run `fn` (modelled
by the value `fnResult` it resolves with), persist
`withStep(cp, name, result, h)`, `Object.assign` the updated checkpoint
onto the caller's `cp`, and resolve with `updated.steps[name].result`. -/
def durable (store : Store) (cp : Checkpoint) (name : String) (inputs : JValue)
    (fnResult : JValue) (now : Int) : StepResult :=
  let h := hash inputs
  match checkCache (lookupField cp.steps name) h with
  | CacheCheck.hit r => ⟨r, cp, cp, store, false, false⟩
  | CacheCheck.miss =>
    let updated := withStep cp name fnResult h now
    let ret := ((lookupField updated.steps name).map StepRecord.result).getD jnull
    ⟨ret, updated, updated, upsert store updated, true, true⟩

/-- Model of `complete`: persist `withStatus(cp, 'completed')`.  No
`Object.assign` here: the caller's `cp` keeps its old value. -/
def complete (store : Store) (cp : Checkpoint) (now : Int) : OpResult :=
  let updated := withStatus cp Status.completed now
  ⟨updated, cp, upsert store updated⟩

/-- Model of `fail`: persist `withStatus(cp, 'failed')`.  No `Object.assign`. -/
def fail (store : Store) (cp : Checkpoint) (now : Int) : OpResult :=
  let updated := withStatus cp Status.failed now
  ⟨updated, cp, upsert store updated⟩

/-- Model of `clear`: delete the row. -/
def clear (store : Store) (fileId : String) : Store := deleteOne store fileId

/-- Model of `clearStep`: persist `withoutStep(cp, name)`, then `Object.assign`
onto the caller's `cp`. -/
def clearStep (store : Store) (cp : Checkpoint) (name : String) : OpResult :=
  let updated := withoutStep cp name
  ⟨updated, updated, upsert store updated⟩

/-- The per-checkpoint pass of `sweep`, sequenced over the stale list:
run the pending cleanups, persist the checkpoint re-statused to Failed
with an empty cleanup list, and record the run id and the trace. -/
def sweepGo (runners : Registry) (now : Int) :
    Store → List Checkpoint → Except String (Store × List String × List (List ExecEntry))
  | store, [] => Except.ok (store, [], [])
  | store, cp :: rest => do
    let log ← executeAllCleanups runners cp.cleanup
    let cp1 := withStatus { cp with cleanup := [] } Status.failed now
    let r ← sweepGo runners now (upsert store cp1) rest
    pure (r.1, cp.fileId :: r.2.1, log :: r.2.2)

/-- What `sweep` resolves with. -/
structure SweepResult : Type where
  cleaned : Nat
  details : List String
  store : Store
  logs : List (List ExecEntry)

/-- The default stale threshold, `60 * 60 * 1000` ms. -/
def defaultStaleThreshold : Int := 60 * 60 * 1000

/-- Model of `sweep`: fetch the stale Running checkpoints, reap each (cleanups,
then persist as Failed with `cleanup = []`), and resolve with
`{cleaned: details.length, details: the run ids}`. -/
def sweep (store : Store) (runners : Registry) (thresholdMs : Int) (now : Int) :
    Except String SweepResult := do
  let stale := fetchStale store now thresholdMs
  let r ← sweepGo runners now store stale
  pure ⟨r.2.1.length, r.2.1, r.1, r.2.2⟩

/-- The per-checkpoint pass of `sweepAllCleanups`: run the pending
cleanups and persist with `cleanup = []`, leaving status untouched. -/
def sweepAllGo (runners : Registry) :
    Store → List Checkpoint → Except String (Store × Nat × List (List ExecEntry))
  | store, [] => Except.ok (store, 0, [])
  | store, cp :: rest => do
    let log ← executeAllCleanups runners cp.cleanup
    let r ← sweepAllGo runners (upsert store { cp with cleanup := [] }) rest
    pure (r.1, r.2.1 + 1, log :: r.2.2)

/-- Model of `sweepAllCleanups`: fetch every checkpoint with pending cleanups
(any status), reconcile each, resolve with the count. -/
def sweepAllCleanups (store : Store) (runners : Registry) :
    Except String (Store × Nat × List (List ExecEntry)) :=
  sweepAllGo runners store (fetchPendingCleanups store)

/-! ## Specification-side notions used by the claims

`KeyEquiv` is the claims' "structurally equal, differing only in object
key insertion order at any nesting depth"; `wfKeys` records that every
object in a value has pairwise-distinct keys, which a real JavaScript
object cannot violate but the association-list model could;
`allowedTransition` is spec §4.4's state machine. -/

/-- Pairwise-distinct keys. -/
def nodupKeys : List String → Bool
  | [] => true
  | k :: ks => !(ks.contains k) && nodupKeys ks

mutual

/-- Every object nested anywhere in the value has distinct keys (always
true of a value that came from a real JavaScript object). -/
def wfKeys : JValue → Bool
  | jnull => true
  | jbool _ => true
  | jnum _ => true
  | jstr _ => true
  | jarr xs => wfKeysList xs
  | jobj fs => nodupKeys (fs.map Prod.fst) && wfKeysFields fs

/-- Model of `wfKeys` over an array's elements. -/
def wfKeysList : List JValue → Bool
  | [] => true
  | x :: xs => wfKeys x && wfKeysList xs

/-- Model of `wfKeys` over an object's field values. -/
def wfKeysFields : List (String × JValue) → Bool
  | [] => true
  | (_, v) :: fs => wfKeys v && wfKeysFields fs

end

/-- Structural equality up to object key insertion order, at any
nesting depth: primitives must agree, arrays must agree pointwise in
order, and objects must consist of the same fields — equal keys with
`KeyEquiv` values — up to a permutation of the field list. -/
inductive KeyEquiv : JValue → JValue → Prop where
  | null : KeyEquiv jnull jnull
  | bool (b : Bool) : KeyEquiv (jbool b) (jbool b)
  | num (n : Int) : KeyEquiv (jnum n) (jnum n)
  | str (s : String) : KeyEquiv (jstr s) (jstr s)
  | arr {xs ys : List JValue} :
      List.Forall₂ KeyEquiv xs ys → KeyEquiv (jarr xs) (jarr ys)
  | obj {fs gs gs' : List (String × JValue)} :
      fs.map Prod.fst = gs'.map Prod.fst →
      List.Forall₂ KeyEquiv (fs.map Prod.snd) (gs'.map Prod.snd) →
      gs'.Perm gs →
      KeyEquiv (jobj fs) (jobj gs)

/-- The status transitions spec §4.4 allows: staying put, or leaving
`Running` for a terminal state. -/
def allowedTransition (old new : Status) : Prop :=
  old = new ∨ (old = Status.running ∧ (new = Status.completed ∨ new = Status.failed))

/-- The invariant of spec §3: a Running checkpoint has no completion
time. -/
def statusInvariant (cp : Checkpoint) : Prop :=
  cp.status = Status.running → cp.completedAt = none

/-- Store well-formedness: the keyed list is keyed by the checkpoints'
own run ids, without duplicate keys. -/
def StoreWF (store : Store) : Prop :=
  (store.map Prod.fst).Nodup ∧ ∀ p ∈ store, (p.2).fileId = p.1

/-! ## Association-list lemmas -/

theorem lookup_setField_self {α : Type} (l : List (String × α)) (k : String) (v : α) :
    lookupField (setField l k v) k = some v := by
  induction l with
  | nil => simp [setField, lookupField]
  | cons p r ih =>
    obtain ⟨k', v'⟩ := p
    by_cases h : k' = k
    · simp [setField, lookupField, h]
    · simp [setField, lookupField, h, ih]

theorem lookup_setField_ne {α : Type} (l : List (String × α)) (k k' : String) (v : α)
    (h : k' ≠ k) : lookupField (setField l k v) k' = lookupField l k' := by
  induction l with
  | nil => simp [setField, lookupField, Ne.symm h]
  | cons p r ih =>
    obtain ⟨k₀, v₀⟩ := p
    simp only [setField]
    by_cases h0 : k₀ = k
    · subst h0
      simp [lookupField, Ne.symm h]
    · simp only [if_neg h0, lookupField]
      by_cases h1 : k₀ = k'
      · simp [h1]
      · simp [h1, ih]

/-! ## A structural induction principle for `JValue`

The nested inductive's auto-generated recursor is awkward to use
directly; this derives the natural member-wise induction principle via
strong induction on `sizeOf`. -/

theorem jvalue_strong_ind {motive : JValue → Prop}
    (ih : ∀ v, (∀ w, sizeOf w < sizeOf v → motive w) → motive v) : ∀ v, motive v := by
  have key : ∀ n v, sizeOf v ≤ n → motive v := by
    intro n
    induction n with
    | zero => intro v hv; exact ih v (fun w hw => absurd (Nat.lt_of_lt_of_le hw hv) (by omega))
    | succ n ihn =>
      intro v hv
      exact ih v (fun w hw => ihn w (by omega))
  exact fun v => key (sizeOf v) v (Nat.le_refl _)

theorem sizeOf_lt_of_mem_arr {x : JValue} {xs : List JValue} (h : x ∈ xs) :
    sizeOf x < sizeOf (jarr xs) := by
  have := List.sizeOf_lt_of_mem h
  simp only [jarr.sizeOf_spec]
  omega

theorem sizeOf_snd_lt_of_mem_obj {p : String × JValue} {fs : List (String × JValue)}
    (h : p ∈ fs) : sizeOf p.2 < sizeOf (jobj fs) := by
  have h1 := List.sizeOf_lt_of_mem h
  obtain ⟨a, b⟩ := p
  simp only [jobj.sizeOf_spec, Prod.mk.sizeOf_spec] at *
  omega

theorem jvalue_ind {motive : JValue → Prop}
    (hnull : motive jnull) (hbool : ∀ b, motive (jbool b)) (hnum : ∀ n, motive (jnum n))
    (hstr : ∀ s, motive (jstr s))
    (harr : ∀ xs, (∀ x ∈ xs, motive x) → motive (jarr xs))
    (hobj : ∀ fs, (∀ p ∈ fs, motive (Prod.snd p)) → motive (jobj fs)) :
    ∀ v, motive v := by
  apply jvalue_strong_ind
  intro v ih
  match v with
  | jnull => exact hnull
  | jbool b => exact hbool b
  | jnum n => exact hnum n
  | jstr s => exact hstr s
  | jarr xs => exact harr xs (fun x hx => ih x (sizeOf_lt_of_mem_arr hx))
  | jobj fs => exact hobj fs (fun p hp => ih p.2 (sizeOf_snd_lt_of_mem_obj hp))

/-! ## The key order: total, transitive, antisymmetric -/

theorem lexLeChars_total (a b : List Char) : lexLeChars a b = true ∨ lexLeChars b a = true := by
  induction a generalizing b with
  | nil => left; simp [lexLeChars]
  | cons c as ih =>
    cases b with
    | nil => right; simp [lexLeChars]
    | cons d bs =>
      by_cases h1 : c.toNat < d.toNat
      · left; simp [lexLeChars, h1]
      · by_cases h2 : d.toNat < c.toNat
        · right; simp [lexLeChars, h2]
        · rcases ih bs with h | h
          · left; simp [lexLeChars, h1, h2, h]
          · right; simp [lexLeChars, h1, h2, h]

theorem lexLeChars_trans {a b c : List Char} (hab : lexLeChars a b = true)
    (hbc : lexLeChars b c = true) : lexLeChars a c = true := by
  induction a generalizing b c with
  | nil => simp [lexLeChars]
  | cons x as ih =>
    cases b with
    | nil => simp [lexLeChars] at hab
    | cons y bs =>
      cases c with
      | nil => simp [lexLeChars] at hbc
      | cons z cs =>
        simp only [lexLeChars] at *
        by_cases hxy : x.toNat < y.toNat
        · by_cases hyz : y.toNat < z.toNat
          · simp [show x.toNat < z.toNat by omega]
          · simp only [if_pos hxy] at hab
            by_cases hzy : z.toNat < y.toNat
            · simp [hyz, hzy] at hbc
            · simp [show x.toNat < z.toNat by omega]
        · by_cases hyx : y.toNat < x.toNat
          · simp [hxy, hyx] at hab
          · by_cases hyz : y.toNat < z.toNat
            · simp [show x.toNat < z.toNat by omega]
            · by_cases hzy : z.toNat < y.toNat
              · simp [hyz, hzy] at hbc
              · have hxz : ¬ x.toNat < z.toNat := by omega
                have hzx : ¬ z.toNat < x.toNat := by omega
                simp only [if_neg hxy, if_neg hyx] at hab
                simp only [if_neg hyz, if_neg hzy] at hbc
                simp [hxz, hzx, ih hab hbc]

theorem lexLeChars_antisymm {a b : List Char} (hab : lexLeChars a b = true)
    (hba : lexLeChars b a = true) : a = b := by
  induction a generalizing b with
  | nil =>
    cases b with
    | nil => rfl
    | cons d bs => simp [lexLeChars] at hba
  | cons c as ih =>
    cases b with
    | nil => simp [lexLeChars] at hab
    | cons d bs =>
      simp only [lexLeChars] at hab hba
      by_cases h1 : c.toNat < d.toNat
      · simp [show ¬ d.toNat < c.toNat by omega, h1] at hba
      · by_cases h2 : d.toNat < c.toNat
        · simp [h1, h2] at hab
        · have hcd : c = d := by
            have : c.toNat = d.toNat := by omega
            exact Char.ext (by exact UInt32.toNat.inj this)
          simp only [if_neg h1, if_neg h2] at hab hba
          rw [hcd, ih hab hba]

instance : IsTotal (String × JValue) keyLE :=
  ⟨fun p q => lexLeChars_total p.1.data q.1.data⟩

instance : IsTrans (String × JValue) keyLE :=
  ⟨fun _ _ _ hab hbc => lexLeChars_trans hab hbc⟩

theorem keyLE_antisymm_keys {p q : String × JValue} (hpq : keyLE p q) (hqp : keyLE q p) :
    p.1 = q.1 := by
  have h := lexLeChars_antisymm hpq hqp
  exact congrArg String.mk h

instance : IsAntisymm (String × JValue) keyLT :=
  ⟨fun _p _q hpq hqp => absurd (keyLE_antisymm_keys hpq.1 hqp.1) hpq.2⟩

/-! ## `sortKeys`: canonicalization respects key-order equivalence -/

theorem sortKeysList_eq_map (xs : List JValue) : sortKeysList xs = xs.map sortKeys := by
  induction xs with
  | nil => simp [sortKeysList]
  | cons x xs ih => simp [sortKeysList, ih]

theorem sortKeysFields_eq_map (fs : List (String × JValue)) :
    sortKeysFields fs = fs.map (fun p => (p.1, sortKeys p.2)) := by
  induction fs with
  | nil => simp [sortKeysFields]
  | cons p fs ih => obtain ⟨k, v⟩ := p; simp [sortKeysFields, ih]

theorem orderedInsert_map_keyPres (a : String × JValue) (l : List (String × JValue)) :
    List.orderedInsert keyLE (a.1, sortKeys a.2) (l.map (fun p => (p.1, sortKeys p.2))) =
      (List.orderedInsert keyLE a l).map (fun p => (p.1, sortKeys p.2)) := by
  induction l with
  | nil => simp [List.orderedInsert]
  | cons b l ih =>
    by_cases h : keyLE a b
    · have h' : keyLE (a.1, sortKeys a.2) (b.1, sortKeys b.2) := h
      simp [List.orderedInsert, h, h']
    · have h' : ¬ keyLE (a.1, sortKeys a.2) (b.1, sortKeys b.2) := h
      simp [List.orderedInsert, h, h', ih]

theorem insertionSort_map_keyPres (l : List (String × JValue)) :
    List.insertionSort keyLE (l.map (fun p => (p.1, sortKeys p.2))) =
      (List.insertionSort keyLE l).map (fun p => (p.1, sortKeys p.2)) := by
  induction l with
  | nil => simp
  | cons a l ih => simp only [List.map_cons, List.insertionSort, ih, orderedInsert_map_keyPres]

/-- The promised reading of the source's order of operations: sorting
the fields first and then recursing into the values (as
`sortKeys` of `src/hash.ts` does) yields the value the definition above
computes, since the sort compares keys only. -/
theorem sortKeys_fields_commute (fs : List (String × JValue)) :
    sortKeys (jobj fs) = jobj (sortKeysFields (List.insertionSort keyLE fs)) := by
  simp only [sortKeys, sortKeysFields_eq_map, insertionSort_map_keyPres]

theorem sorted_keyLT_of_sorted_keyLE {l : List (String × JValue)}
    (hs : List.Sorted keyLE l) (hnd : (l.map Prod.fst).Nodup) : List.Sorted keyLT l := by
  have hne : l.Pairwise (fun a b => a.1 ≠ b.1) := (List.pairwise_map.mp hnd)
  exact (hs.and hne).imp (fun h => ⟨h.1, h.2⟩)

theorem insertionSort_eq_of_perm {l1 l2 : List (String × JValue)} (hp : l1.Perm l2)
    (hnd : (l1.map Prod.fst).Nodup) :
    List.insertionSort keyLE l1 = List.insertionSort keyLE l2 := by
  have hnd2 : (l2.map Prod.fst).Nodup := ((hp.map Prod.fst).nodup_iff).mp hnd
  have hnds1 : ((List.insertionSort keyLE l1).map Prod.fst).Nodup :=
    (((List.perm_insertionSort keyLE l1).map Prod.fst).nodup_iff).mpr hnd
  have hnds2 : ((List.insertionSort keyLE l2).map Prod.fst).Nodup :=
    (((List.perm_insertionSort keyLE l2).map Prod.fst).nodup_iff).mpr hnd2
  refine List.eq_of_perm_of_sorted (r := keyLT) ?_ ?_ ?_
  · exact (List.perm_insertionSort keyLE l1).trans
      (hp.trans (List.perm_insertionSort keyLE l2).symm)
  · exact sorted_keyLT_of_sorted_keyLE (List.sorted_insertionSort keyLE l1) hnds1
  · exact sorted_keyLT_of_sorted_keyLE (List.sorted_insertionSort keyLE l2) hnds2

theorem nodupKeys_iff (ks : List String) : nodupKeys ks = true ↔ ks.Nodup := by
  induction ks with
  | nil => simp [nodupKeys]
  | cons k ks ih => simp [nodupKeys, ih, List.nodup_cons]

theorem wfKeysList_iff (xs : List JValue) :
    wfKeysList xs = true ↔ ∀ x ∈ xs, wfKeys x = true := by
  induction xs with
  | nil => simp [wfKeysList]
  | cons x xs ih => simp [wfKeysList, ih]

theorem wfKeysFields_iff (fs : List (String × JValue)) :
    wfKeysFields fs = true ↔ ∀ p ∈ fs, wfKeys (Prod.snd p) = true := by
  induction fs with
  | nil => simp [wfKeysFields]
  | cons p fs ih => obtain ⟨k, v⟩ := p; simp [wfKeysFields, ih]

theorem sortKeysList_congr {xs ys : List JValue} (hf : List.Forall₂ KeyEquiv xs ys)
    (ih : ∀ x ∈ xs, ∀ y, KeyEquiv x y → wfKeys x = true → wfKeys y = true →
      sortKeys x = sortKeys y)
    (wx : wfKeysList xs = true) (wy : wfKeysList ys = true) :
    sortKeysList xs = sortKeysList ys := by
  induction hf with
  | nil => rfl
  | cons hxy hrest ihf =>
    rename_i x y xs' ys'
    simp only [wfKeysList, Bool.and_eq_true] at wx wy
    simp only [sortKeysList]
    rw [ih x (by simp) y hxy wx.1 wy.1,
      ihf (fun x' hx' => ih x' (by simp [hx'])) wx.2 wy.2]

theorem fieldsMap_congr : ∀ fs gs' : List (String × JValue),
    fs.map Prod.fst = gs'.map Prod.fst →
    List.Forall₂ KeyEquiv (fs.map Prod.snd) (gs'.map Prod.snd) →
    (∀ p ∈ fs, ∀ y, KeyEquiv (Prod.snd p) y → wfKeys (Prod.snd p) = true → wfKeys y = true →
      sortKeys (Prod.snd p) = sortKeys y) →
    wfKeysFields fs = true → wfKeysFields gs' = true →
    fs.map (fun p => (p.1, sortKeys p.2)) = gs'.map (fun p => (p.1, sortKeys p.2))
  | [], [], _, _, _, _, _ => rfl
  | [], (_q :: _gs'), hk, _, _, _, _ => by simp at hk
  | (_p :: _fs), [], hk, _, _, _, _ => by simp at hk
  | (p :: fs), (q :: gs'), hk, hv, ih, wf1, wf2 => by
    obtain ⟨k1, v1⟩ := p
    obtain ⟨k2, v2⟩ := q
    simp only [List.map_cons, List.cons.injEq] at hk hv ⊢
    cases hv with
    | cons hv1 hvrest =>
      simp only [wfKeysFields, Bool.and_eq_true] at wf1 wf2
      refine ⟨?_, ?_⟩
      · simp only [hk.1]
        rw [ih (k1, v1) (by simp) v2 hv1 wf1.1 wf2.1]
      · exact fieldsMap_congr fs gs' hk.2 hvrest
          (fun p' hp' => ih p' (by simp [hp'])) wf1.2 wf2.2

theorem sortKeys_congr_of_keyEquiv :
    ∀ a b, KeyEquiv a b → wfKeys a = true → wfKeys b = true → sortKeys a = sortKeys b := by
  intro a
  induction a using jvalue_ind with
  | hnull => intro b h _ _; cases h; rfl
  | hbool b0 => intro b h _ _; cases h; rfl
  | hnum n => intro b h _ _; cases h; rfl
  | hstr s => intro b h _ _; cases h; rfl
  | harr xs ih =>
    intro b h wa wb
    cases h with
    | arr hf =>
      rename_i ys
      simp only [wfKeys] at wa wb
      simp only [sortKeys]
      rw [sortKeysList_congr hf ih wa wb]
  | hobj fs ih =>
    intro b h wa wb
    cases h with
    | obj hk hv hperm =>
      rename_i gs gs'
      simp only [wfKeys, Bool.and_eq_true] at wa wb
      have wfgs' : wfKeysFields gs' = true := by
        rw [wfKeysFields_iff]
        intro p hp
        exact (wfKeysFields_iff gs).mp wb.2 p (hperm.mem_iff.mp hp)
      simp only [sortKeys, sortKeysFields_eq_map]
      have h1 : fs.map (fun p => (p.1, sortKeys p.2)) = gs'.map (fun p => (p.1, sortKeys p.2)) :=
        fieldsMap_congr fs gs' hk hv ih wa.2 wfgs'
      rw [h1]
      refine congrArg jobj ?_
      apply insertionSort_eq_of_perm (hperm.map _)
      have hfst : (gs'.map (fun p : String × JValue => (p.1, sortKeys p.2))).map Prod.fst =
          gs'.map Prod.fst := by
        rw [List.map_map]; rfl
      rw [hfst]
      exact ((hperm.map Prod.fst).nodup_iff).mpr ((nodupKeys_iff _).mp wb.1)

/-! ## Decimal printing reads back: `parseIntChars ∘ intToChars` -/

theorem digitChar_toNat {d : Nat} (h : d < 10) : (digitChar d).toNat = 48 + d := by
  interval_cases d <;> decide

theorem isDigitChar_digitChar {d : Nat} (h : d < 10) : isDigitChar (digitChar d) = true := by
  simp [isDigitChar, digitChar_toNat h]
  omega

theorem natToCharsGo_congr : ∀ n f f', n < f → n < f' →
    natToCharsGo f n = natToCharsGo f' n := by
  intro n
  induction n using Nat.strong_induction_on with
  | _ n ih =>
    intro f f' hf hf'
    match f, f' with
    | fg + 1, fg' + 1 =>
      simp only [natToCharsGo]
      by_cases h : n < 10
      · simp [h]
      · have hlt : n / 10 < n := Nat.div_lt_self (by omega) (by norm_num)
        simp only [if_neg h]
        rw [ih (n / 10) hlt fg fg' (by omega) (by omega)]

theorem natToCharsGo_all_digits : ∀ n f, n < f →
    ∀ c ∈ natToCharsGo f n, isDigitChar c = true := by
  intro n
  induction n using Nat.strong_induction_on with
  | _ n ih =>
    intro f hf c hc
    match f with
    | fg + 1 =>
      simp only [natToCharsGo] at hc
      by_cases h : n < 10
      · simp [h] at hc
        rw [hc]
        exact isDigitChar_digitChar h
      · have hlt : n / 10 < n := Nat.div_lt_self (by omega) (by norm_num)
        simp only [if_neg h, List.mem_append, List.mem_singleton] at hc
        rcases hc with hc | hc
        · exact ih (n / 10) hlt fg (by omega) c hc
        · rw [hc]
          exact isDigitChar_digitChar (by omega)

theorem natToCharsGo_ne_nil : ∀ n f, n < f → natToCharsGo f n ≠ [] := by
  intro n f hf
  match f with
  | fg + 1 =>
    simp only [natToCharsGo]
    by_cases h : n < 10
    · simp [h]
    · simp [h]

theorem digitsVal_append (l : List Char) (c : Char) :
    digitsVal (l ++ [c]) = 10 * digitsVal l + (c.toNat - 48) := by
  simp [digitsVal, List.foldl_append]

theorem natToCharsGo_val : ∀ n f, n < f → digitsVal (natToCharsGo f n) = n := by
  intro n
  induction n using Nat.strong_induction_on with
  | _ n ih =>
    intro f hf
    match f with
    | fg + 1 =>
      simp only [natToCharsGo]
      by_cases h : n < 10
      · simp [h, digitsVal, digitChar_toNat h]
      · have hlt : n / 10 < n := Nat.div_lt_self (by omega) (by norm_num)
        simp only [if_neg h]
        rw [digitsVal_append, ih (n / 10) hlt fg (by omega),
          digitChar_toNat (show n % 10 < 10 by omega)]
        omega

theorem takeWhile_append_split {p : Char → Bool} : ∀ l r : List Char,
    (∀ c ∈ l, p c = true) → (∀ c, r.head? = some c → p c = false) →
    (l ++ r).takeWhile p = l ∧ (l ++ r).dropWhile p = r := by
  intro l
  induction l with
  | nil =>
    intro r _ hr
    cases r with
    | nil => simp
    | cons c rtl =>
      simp only [List.nil_append]
      constructor
      · rw [List.takeWhile_cons, hr c rfl]
        simp
      · rw [List.dropWhile_cons, hr c rfl]
        simp
  | cons a l ih =>
    intro r hl hr
    have ha : p a = true := hl a (by simp)
    have hrec := ih r (fun c hc => hl c (by simp [hc])) hr
    constructor
    · simp [List.takeWhile_cons, ha, hrec.1]
    · simp [List.dropWhile_cons, ha, hrec.2]

theorem parseNatChars_natToChars (n : Nat) (rest : List Char)
    (hrest : ∀ c, rest.head? = some c → isDigitChar c = false) :
    parseNatChars (natToChars n ++ rest) = some (n, rest) := by
  have hall : ∀ c ∈ natToChars n, isDigitChar c = true :=
    natToCharsGo_all_digits n (n + 1) (by omega)
  have hsplit := takeWhile_append_split (natToChars n) rest hall hrest
  have hne : natToChars n ≠ [] := natToCharsGo_ne_nil n (n + 1) (by omega)
  have hlen : (natToChars n).length ≠ 0 := by
    intro hl
    exact hne (List.length_eq_zero.mp hl)
  simp only [parseNatChars, hsplit.1, hsplit.2, if_neg hlen]
  have hval : digitsVal (natToChars n) = n := natToCharsGo_val n (n + 1) (by omega)
  rw [hval]

theorem natToChars_head_digit (n : Nat) :
    ∀ c, (natToChars n).head? = some c → isDigitChar c = true := by
  intro c hc
  have hall : ∀ x ∈ natToChars n, isDigitChar x = true :=
    natToCharsGo_all_digits n (n + 1) (by omega)
  cases hm : natToChars n with
  | nil => rw [hm] at hc; simp at hc
  | cons a tl =>
    rw [hm] at hc
    simp only [List.head?_cons, Option.some.injEq] at hc
    subst hc
    exact hall a (by rw [hm]; simp)

theorem parseIntChars_intToChars (n : Int) (rest : List Char)
    (hrest : ∀ c, rest.head? = some c → isDigitChar c = false) :
    parseIntChars (intToChars n ++ rest) = some (n, rest) := by
  by_cases hneg : n < 0
  · simp only [intToChars, if_pos hneg, List.cons_append, parseIntChars, if_pos rfl]
    rw [parseNatChars_natToChars n.natAbs rest hrest]
    have hv : -((n.natAbs : Nat) : Int) = n := by omega
    simp [hv]
    rw [abs_of_neg hneg]
    ring
  · simp only [intToChars, if_neg hneg]
    obtain ⟨c, cs, hm⟩ : ∃ c cs, natToChars n.toNat = c :: cs := by
      cases hm : natToChars n.toNat with
      | nil => exact absurd hm (natToCharsGo_ne_nil n.toNat (n.toNat + 1) (by omega))
      | cons c cs => exact ⟨c, cs, rfl⟩
    have hcdig : isDigitChar c = true := by
      apply natToChars_head_digit n.toNat
      rw [hm]; rfl
    have hcne : c ≠ '-' := by
      intro hcc
      rw [hcc] at hcdig
      simp [isDigitChar] at hcdig
    rw [hm]
    simp only [List.cons_append, parseIntChars, if_neg hcne]
    rw [← List.cons_append, ← hm, parseNatChars_natToChars n.toNat rest hrest]
    have hv : ((n.toNat : Nat) : Int) = n := by omega
    simp [hv]

/-! ## String escaping reads back: `parseStringRest ∘ escChars` -/

theorem hexCharOf_roundtrip {d : Nat} (h : d < 16) : hexValOf (hexCharOf d) = some d := by
  interval_cases d <;> decide

theorem parseStringRest_esc_u_control (d : Nat) (hd : d < 32) (r : List Char) :
    parseStringRest
      ('\\' :: 'u' :: '0' :: '0' :: hexCharOf (d / 16) :: hexCharOf (d % 16) :: r) =
      (parseStringRest r).map (fun p => (Char.ofNat d :: p.1, p.2)) := by
  have h3 : hexValOf (hexCharOf (d / 16)) = some (d / 16) := hexCharOf_roundtrip (by omega)
  have h4 : hexValOf (hexCharOf (d % 16)) = some (d % 16) := hexCharOf_roundtrip (by omega)
  have h0 : hexValOf '0' = some 0 := rfl
  rw [show parseStringRest
      ('\\' :: 'u' :: '0' :: '0' :: hexCharOf (d / 16) :: hexCharOf (d % 16) :: r) =
      (match hexValOf '0', hexValOf '0', hexValOf (hexCharOf (d / 16)),
          hexValOf (hexCharOf (d % 16)) with
        | some v1, some v2, some v3, some v4 =>
          if _h : (4096 * v1 + 256 * v2 + 16 * v3 + v4).isValidChar then
            (parseStringRest r).map
              (fun p => (Char.ofNat (4096 * v1 + 256 * v2 + 16 * v3 + v4) :: p.1, p.2))
          else none
        | _, _, _, _ => none) from rfl]
  simp only [h0, h3, h4]
  have hn : 4096 * 0 + 256 * 0 + 16 * (d / 16) + d % 16 = d := by omega
  simp only [hn]
  rw [dif_pos (Or.inl (by omega : d < 55296))]

theorem escChars_append (l1 l2 : List Char) :
    escChars (l1 ++ l2) = escChars l1 ++ escChars l2 := by
  induction l1 with
  | nil => simp [escChars]
  | cons c l1 ih => simp [escChars, ih]

theorem parseStringRest_escChars : ∀ cs rest,
    parseStringRest (escChars cs ++ '"' :: rest) = some (cs, rest) := by
  intro cs
  induction cs with
  | nil =>
    intro rest
    show parseStringRest ('"' :: rest) = some ([], rest)
    unfold parseStringRest
    rw [if_pos rfl]
  | cons c cs ih =>
    intro rest
    show parseStringRest ((escChar c ++ escChars cs) ++ '"' :: rest) = _
    rw [List.append_assoc]
    by_cases h1 : c = '"'
    · subst h1
      rw [show escChar '"' = ['\\', '"'] from rfl]
      show (parseStringRest (escChars cs ++ '"' :: rest)).map (fun p => ('"' :: p.1, p.2)) = _
      rw [ih rest]
      rfl
    · by_cases h2 : c = '\\'
      · subst h2
        rw [show escChar '\\' = ['\\', '\\'] from rfl]
        show (parseStringRest (escChars cs ++ '"' :: rest)).map
          (fun p => ('\\' :: p.1, p.2)) = _
        rw [ih rest]
        rfl
      · by_cases h3 : c.toNat < 32
        · have : escChar c = ['\\', 'u', '0', '0',
              hexCharOf (c.toNat / 16), hexCharOf (c.toNat % 16)] := by
            rw [escChar, if_neg h1, if_neg h2, if_pos h3]
          rw [this]
          show parseStringRest ('\\' :: 'u' :: '0' :: '0' :: hexCharOf (c.toNat / 16) ::
            hexCharOf (c.toNat % 16) :: (escChars cs ++ '"' :: rest)) = _
          rw [parseStringRest_esc_u_control c.toNat h3, ih rest]
          simp [Char.ofNat_toNat]
        · have : escChar c = [c] := by rw [escChar, if_neg h1, if_neg h2, if_neg h3]
          rw [this]
          show parseStringRest (c :: (escChars cs ++ '"' :: rest)) = _
          rw [parseStringRest.eq_def]
          simp only []
          rw [if_neg h1, if_neg h2, ih rest]
          rfl

/-! ## Shape facts about the serialized text -/

theorem head?_append_of_ne_nil {l r : List Char} (h : l ≠ []) :
    (l ++ r).head? = l.head? := by
  cases l with
  | nil => exact absurd rfl h
  | cons c tl => simp

theorem intToChars_ne_nil (n : Int) : intToChars n ≠ [] := by
  unfold intToChars
  by_cases h : n < 0
  · simp [h]
  · simp only [if_neg h]
    exact natToCharsGo_ne_nil n.toNat (n.toNat + 1) (by omega)

theorem stringifyChars_ne_nil (v : JValue) : stringifyChars v ≠ [] := by
  cases v with
  | jnull => simp [stringifyChars]
  | jbool b => cases b <;> simp [stringifyChars]
  | jnum n => exact intToChars_ne_nil n
  | jstr s => simp [stringifyChars]
  | jarr xs => simp [stringifyChars]
  | jobj fs => simp [stringifyChars]

theorem stringifyChars_length_pos (v : JValue) : 0 < (stringifyChars v).length :=
  List.length_pos_of_ne_nil (stringifyChars_ne_nil v)

theorem intToChars_head (n : Int) :
    ∀ c, (intToChars n).head? = some c → c = '-' ∨ isDigitChar c = true := by
  intro c hc
  unfold intToChars at hc
  by_cases h : n < 0
  · simp [h] at hc
    exact Or.inl hc.symm
  · simp only [if_neg h] at hc
    exact Or.inr (natToChars_head_digit n.toNat c hc)

theorem stringifyChars_head_ne_close (v : JValue) :
    ∀ c, (stringifyChars v).head? = some c → c ≠ ']' ∧ c ≠ '}' := by
  intro c hc
  cases v with
  | jnull => simp [stringifyChars] at hc; subst hc; exact ⟨by decide, by decide⟩
  | jbool b =>
    cases b <;> simp [stringifyChars] at hc <;> subst hc <;> exact ⟨by decide, by decide⟩
  | jnum n =>
    rcases intToChars_head n c hc with h | h
    · subst h; exact ⟨by decide, by decide⟩
    · constructor <;> (intro he; subst he; simp [isDigitChar] at h)
  | jstr s => simp [stringifyChars] at hc; subst hc; exact ⟨by decide, by decide⟩
  | jarr xs => simp [stringifyChars] at hc; subst hc; exact ⟨by decide, by decide⟩
  | jobj fs => simp [stringifyChars] at hc; subst hc; exact ⟨by decide, by decide⟩

theorem stringifyElems_ne_nil (x : JValue) (xs : List JValue) :
    stringifyElems (x :: xs) ≠ [] := by
  cases xs with
  | nil => exact stringifyChars_ne_nil x
  | cons y tl =>
    show stringifyChars x ++ ',' :: stringifyElems (y :: tl) ≠ []
    simp

theorem stringifyElems_head (x : JValue) (xs : List JValue) :
    (stringifyElems (x :: xs)).head? = (stringifyChars x).head? := by
  cases xs with
  | nil => rfl
  | cons y tl =>
    show (stringifyChars x ++ ',' :: stringifyElems (y :: tl)).head? = _
    exact head?_append_of_ne_nil (stringifyChars_ne_nil x)

theorem stringifyFields_head (k : String) (v : JValue) (fs : List (String × JValue)) :
    (stringifyFields ((k, v) :: fs)).head? = some '"' := by
  cases fs with
  | nil => rfl
  | cons q tl => rfl

/-- The branch of `parseVal` a non-keyword, non-punctuation head selects:
the number reader. -/
theorem parseVal_default (f : Nat) (c : Char) (r : List Char)
    (h1 : c ≠ 'n') (h2 : c ≠ 't') (h3 : c ≠ 'f') (h4 : c ≠ '"') (h5 : c ≠ '[')
    (h6 : c ≠ '{') :
    parseVal (f + 1) (c :: r) = (parseIntChars (c :: r)).map (fun p => (jnum p.1, p.2)) := by
  show (if c = 'n' then
      match r with
      | 'u' :: 'l' :: 'l' :: r2 => some (jnull, r2)
      | _ => none
    else if c = 't' then
      match r with
      | 'r' :: 'u' :: 'e' :: r2 => some (jbool true, r2)
      | _ => none
    else if c = 'f' then
      match r with
      | 'a' :: 'l' :: 's' :: 'e' :: r2 => some (jbool false, r2)
      | _ => none
    else if c = '"' then (parseStringRest r).map (fun p => (jstr (String.mk p.1), p.2))
    else if c = '[' then
      if r.head? = some ']' then some (jarr [], r.tail)
      else (parseElems f r).map (fun p => (jarr p.1, p.2))
    else if c = '{' then
      if r.head? = some '}' then some (jobj [], r.tail)
      else (parseFields f r).map (fun p => (jobj p.1, p.2))
    else (parseIntChars (c :: r)).map (fun p => (jnum p.1, p.2))) = _
  rw [if_neg h1, if_neg h2, if_neg h3, if_neg h4, if_neg h5, if_neg h6]

/-! ## The serializer reads back: `parseVal ∘ stringifyChars` -/

theorem parse_stringify_roundtrip : ∀ f : Nat,
    (∀ v rest, (stringifyChars v).length ≤ f →
      (∀ c, rest.head? = some c → isDigitChar c = false) →
      parseVal f (stringifyChars v ++ rest) = some (v, rest)) ∧
    (∀ xs rest, xs ≠ [] → (stringifyElems xs).length + 1 ≤ f →
      parseElems f (stringifyElems xs ++ ']' :: rest) = some (xs, rest)) ∧
    (∀ fs rest, fs ≠ [] → (stringifyFields fs).length + 1 ≤ f →
      parseFields f (stringifyFields fs ++ '}' :: rest) = some (fs, rest)) := by
  intro f
  induction f with
  | zero =>
    refine ⟨fun v rest hlen _ => ?_, fun xs rest hne hlen => ?_, fun fs rest hne hlen => ?_⟩
    · exact absurd hlen (by have := stringifyChars_length_pos v; omega)
    · exact absurd hlen (by omega)
    · exact absurd hlen (by omega)
  | succ f ih =>
    obtain ⟨ihP, ihQ, ihR⟩ := ih
    refine ⟨?_, ?_, ?_⟩
    · -- parseVal on one serialized value
      intro v rest hlen hrest
      cases v with
      | jnull => exact rfl
      | jbool b => cases b <;> exact rfl
      | jnum n =>
        obtain ⟨c, cs, hm⟩ : ∃ c cs, intToChars n = c :: cs := by
          cases hm : intToChars n with
          | nil => exact absurd hm (intToChars_ne_nil n)
          | cons c cs => exact ⟨c, cs, rfl⟩
        have hc := intToChars_head n c (by rw [hm]; rfl)
        have htoNat : c.toNat = 45 ∨ (48 ≤ c.toNat ∧ c.toNat ≤ 57) := by
          rcases hc with h | h
          · subst h; left; rfl
          · right; simp [isDigitChar] at h; omega
        have hne : ∀ x ∈ (['n', 't', 'f', '"', '[', '{'] : List Char), c ≠ x := by
          intro x hx he
          subst he
          fin_cases hx <;> revert htoNat <;> decide
        have hsplit : stringifyChars (jnum n) ++ rest = c :: (cs ++ rest) := by
          show intToChars n ++ rest = _
          rw [hm]
          rfl
        rw [hsplit, parseVal_default f c _ (hne 'n' (by simp)) (hne 't' (by simp))
          (hne 'f' (by simp)) (hne '"' (by simp)) (hne '[' (by simp)) (hne '{' (by simp))]
        rw [show c :: (cs ++ rest) = intToChars n ++ rest by rw [hm]; rfl]
        rw [parseIntChars_intToChars n rest hrest]
        rfl
      | jstr s =>
        have hsplit : stringifyChars (jstr s) ++ rest =
            '"' :: (escChars s.data ++ '"' :: rest) := by
          show ('"' :: (escChars s.data ++ ['"'])) ++ rest = _
          simp [List.append_assoc]
        rw [hsplit]
        rw [show parseVal (f + 1) ('"' :: (escChars s.data ++ '"' :: rest)) =
          (parseStringRest (escChars s.data ++ '"' :: rest)).map
            (fun p => (jstr (String.mk p.1), p.2)) from rfl]
        rw [parseStringRest_escChars s.data rest]
        rfl
      | jarr xs =>
        cases xs with
        | nil => exact rfl
        | cons x xs' =>
          have hsplit : stringifyChars (jarr (x :: xs')) ++ rest =
              '[' :: (stringifyElems (x :: xs') ++ ']' :: rest) := by
            show ('[' :: (stringifyElems (x :: xs') ++ [']'])) ++ rest = _
            simp [List.append_assoc]
          rw [hsplit]
          rw [show parseVal (f + 1) ('[' :: (stringifyElems (x :: xs') ++ ']' :: rest)) =
            (if (stringifyElems (x :: xs') ++ ']' :: rest).head? = some ']' then
              some (jarr [], (stringifyElems (x :: xs') ++ ']' :: rest).tail)
            else (parseElems f (stringifyElems (x :: xs') ++ ']' :: rest)).map
              (fun p => (jarr p.1, p.2))) from rfl]
          have hhd : (stringifyElems (x :: xs') ++ ']' :: rest).head? ≠ some ']' := by
            rw [head?_append_of_ne_nil (stringifyElems_ne_nil x xs'), stringifyElems_head]
            obtain ⟨c, cs, hm⟩ : ∃ c cs, stringifyChars x = c :: cs := by
              cases hm : stringifyChars x with
              | nil => exact absurd hm (stringifyChars_ne_nil x)
              | cons c cs => exact ⟨c, cs, rfl⟩
            rw [hm]
            have := (stringifyChars_head_ne_close x c (by rw [hm]; rfl)).1
            simpa using this
          rw [if_neg hhd]
          have hbound : (stringifyElems (x :: xs')).length + 1 ≤ f := by
            have : (stringifyChars (jarr (x :: xs'))).length =
                (stringifyElems (x :: xs')).length + 2 := by
              show ('[' :: (stringifyElems (x :: xs') ++ [']'])).length = _
              simp
            omega
          rw [ihQ (x :: xs') rest (by simp) hbound]
          rfl
      | jobj fs =>
        cases fs with
        | nil => exact rfl
        | cons p fs' =>
          obtain ⟨k, v⟩ := p
          have hsplit : stringifyChars (jobj ((k, v) :: fs')) ++ rest =
              '{' :: (stringifyFields ((k, v) :: fs') ++ '}' :: rest) := by
            show ('{' :: (stringifyFields ((k, v) :: fs') ++ ['}'])) ++ rest = _
            simp [List.append_assoc]
          rw [hsplit]
          rw [show parseVal (f + 1) ('{' :: (stringifyFields ((k, v) :: fs') ++ '}' :: rest)) =
            (if (stringifyFields ((k, v) :: fs') ++ '}' :: rest).head? = some '}' then
              some (jobj [], (stringifyFields ((k, v) :: fs') ++ '}' :: rest).tail)
            else (parseFields f (stringifyFields ((k, v) :: fs') ++ '}' :: rest)).map
              (fun p => (jobj p.1, p.2))) from rfl]
          have hfne : stringifyFields ((k, v) :: fs') ≠ [] := by
            intro hnil
            have := stringifyFields_head k v fs'
            rw [hnil] at this
            simp at this
          have hhd : (stringifyFields ((k, v) :: fs') ++ '}' :: rest).head? ≠ some '}' := by
            rw [head?_append_of_ne_nil hfne, stringifyFields_head]
            decide
          rw [if_neg hhd]
          have hbound : (stringifyFields ((k, v) :: fs')).length + 1 ≤ f := by
            have : (stringifyChars (jobj ((k, v) :: fs'))).length =
                (stringifyFields ((k, v) :: fs')).length + 2 := by
              show ('{' :: (stringifyFields ((k, v) :: fs') ++ ['}'])).length = _
              simp
            omega
          rw [ihR ((k, v) :: fs') rest (by simp) hbound]
          rfl
    · -- parseElems on a serialized non-empty element list
      intro xs rest hne hbound
      cases xs with
      | nil => exact absurd rfl hne
      | cons x xs' =>
        cases xs' with
        | nil =>
          show (parseVal f (stringifyChars x ++ ']' :: rest)).bind _ = _
          have hlenx : (stringifyChars x).length ≤ f := by
            have : stringifyElems [x] = stringifyChars x := rfl
            rw [this] at hbound
            omega
          rw [ihP x (']' :: rest) hlenx (by intro c hc; simp at hc; subst hc; decide)]
          rfl
        | cons y tl =>
          have hsplit : stringifyElems (x :: y :: tl) ++ ']' :: rest =
              stringifyChars x ++ (',' :: (stringifyElems (y :: tl) ++ ']' :: rest)) := by
            show (stringifyChars x ++ ',' :: stringifyElems (y :: tl)) ++ ']' :: rest = _
            simp [List.append_assoc]
          rw [hsplit]
          have hlens : (stringifyElems (x :: y :: tl)).length =
              (stringifyChars x).length + 1 + (stringifyElems (y :: tl)).length := by
            show (stringifyChars x ++ ',' :: stringifyElems (y :: tl)).length = _
            simp
            omega
          show (parseVal f (stringifyChars x ++
            (',' :: (stringifyElems (y :: tl) ++ ']' :: rest)))).bind _ = _
          rw [ihP x (',' :: (stringifyElems (y :: tl) ++ ']' :: rest))
            (by omega) (by intro c hc; simp at hc; subst hc; decide)]
          show (parseElems f (stringifyElems (y :: tl) ++ ']' :: rest)).map _ = _
          rw [ihQ (y :: tl) rest (by simp) (by omega)]
          rfl
    · -- parseFields on a serialized non-empty field list
      intro fs rest hne hbound
      cases fs with
      | nil => exact absurd rfl hne
      | cons p fs' =>
        obtain ⟨k, v⟩ := p
        cases fs' with
        | nil =>
          have hsplit : stringifyFields [(k, v)] ++ '}' :: rest =
              '"' :: (escChars k.data ++ '"' :: (':' :: (stringifyChars v ++ '}' :: rest))) := by
            show ('"' :: escChars k.data ++ '"' :: ':' :: stringifyChars v) ++ '}' :: rest = _
            simp [List.append_assoc]
          rw [hsplit]
          show (parseStringRest (escChars k.data ++ '"' ::
            (':' :: (stringifyChars v ++ '}' :: rest)))).bind _ = _
          rw [parseStringRest_escChars k.data]
          show (parseVal f (stringifyChars v ++ '}' :: rest)).bind _ = _
          have hlenv : (stringifyChars v).length ≤ f := by
            have : (stringifyFields [(k, v)]).length =
                1 + (escChars k.data).length + 2 + (stringifyChars v).length := by
              show ('"' :: escChars k.data ++ '"' :: ':' :: stringifyChars v).length = _
              simp
              omega
            omega
          rw [ihP v ('}' :: rest) hlenv (by intro c hc; simp at hc; subst hc; decide)]
          rfl
        | cons q tl =>
          have hsplit : stringifyFields ((k, v) :: q :: tl) ++ '}' :: rest =
              '"' :: (escChars k.data ++ '"' :: (':' :: (stringifyChars v ++
                (',' :: (stringifyFields (q :: tl) ++ '}' :: rest))))) := by
            show (('"' :: escChars k.data ++ '"' :: ':' :: stringifyChars v) ++
              ',' :: stringifyFields (q :: tl)) ++ '}' :: rest = _
            simp [List.append_assoc]
          rw [hsplit]
          show (parseStringRest (escChars k.data ++ '"' :: (':' :: (stringifyChars v ++
            (',' :: (stringifyFields (q :: tl) ++ '}' :: rest)))))).bind _ = _
          rw [parseStringRest_escChars k.data]
          show (parseVal f (stringifyChars v ++
            (',' :: (stringifyFields (q :: tl) ++ '}' :: rest)))).bind _ = _
          have hlens : (stringifyFields ((k, v) :: q :: tl)).length =
              1 + (escChars k.data).length + 2 + (stringifyChars v).length + 1 +
                (stringifyFields (q :: tl)).length := by
            show (('"' :: escChars k.data ++ '"' :: ':' :: stringifyChars v) ++
              ',' :: stringifyFields (q :: tl)).length = _
            simp
            omega
          rw [ihP v (',' :: (stringifyFields (q :: tl) ++ '}' :: rest))
            (by omega) (by intro c hc; simp at hc; subst hc; decide)]
          show (parseFields f (stringifyFields (q :: tl) ++ '}' :: rest)).map _ = _
          rw [ihR (q :: tl) rest (by simp) (by omega)]
          rfl

/-- Model of `JSON.parse` undoes `JSON.stringify`. -/
theorem jsonParse_stringify (v : JValue) : jsonParse (stringify v) = some v := by
  unfold jsonParse stringify
  have hdata : (String.mk (stringifyChars v)).data = stringifyChars v := rfl
  rw [hdata]
  have hself : stringifyChars v = stringifyChars v ++ [] := by simp
  have hp := (parse_stringify_roundtrip ((stringifyChars v).length + 1)).1 v []
    (by omega) (by intro c hc; simp at hc)
  rw [show stringifyChars v ++ [] = stringifyChars v by simp] at hp
  rw [hp]

/-! ## Row encoding round-trip -/

theorem decodeStepRecord_roundtrip (r : StepRecord) :
    decodeStepRecord (stepRecordToJValue r) = some r := by
  obtain ⟨res, h, t⟩ := r
  simp [stepRecordToJValue, decodeStepRecord, lookupField]

theorem decodeSteps_roundtrip (steps : List (String × StepRecord)) :
    decodeSteps (stepsToJValue steps) = some steps := by
  induction steps with
  | nil => rfl
  | cons p tl ih =>
    obtain ⟨k, r⟩ := p
    simp only [stepsToJValue, decodeSteps, List.map_cons, decodeStepsGo] at ih ⊢
    simp [decodeStepRecord_roundtrip r, ih]

theorem decodeCleanupAction_roundtrip (a : CleanupAction) :
    decodeCleanupAction (cleanupActionToJValue a) = some a := by
  obtain ⟨i, t, ps, at_⟩ := a
  simp [cleanupActionToJValue, decodeCleanupAction, lookupField]

theorem decodeCleanup_roundtrip (cleanup : List CleanupAction) :
    decodeCleanup (cleanupToJValue cleanup) = some cleanup := by
  induction cleanup with
  | nil => rfl
  | cons a tl ih =>
    simp only [cleanupToJValue, decodeCleanup, List.map_cons, decodeCleanupGo] at ih ⊢
    simp [decodeCleanupAction_roundtrip a, ih]

theorem rowToCheckpoint_checkpointToRow (cp : Checkpoint) :
    rowToCheckpoint (checkpointToRow cp) = some cp := by
  obtain ⟨fid, st, ct, stat, steps, cleanup⟩ := cp
  simp [checkpointToRow, rowToCheckpoint, jsonParse_stringify,
    decodeSteps_roundtrip, decodeCleanup_roundtrip]

theorem rowToCheckpoint_structured (cp : Checkpoint) :
    rowToCheckpoint
      { checkpointToRow cp with
        steps := JsonField.strukt cp.steps
        cleanup := JsonField.strukt cp.cleanup } = some cp := by
  obtain ⟨fid, st, ct, stat, steps, cleanup⟩ := cp
  simp [checkpointToRow, rowToCheckpoint]

/-! ## The cleanup executor resolves -/

theorem executeCleanup_ok (runners : Registry) (a : CleanupAction) :
    executeCleanup runners a = Except.ok (cleanupEntry runners a) := by
  cases hl : lookupField runners a.type with
  | none => simp [executeCleanup, cleanupEntry, hl]
  | some runner =>
    cases hr : runner a.params with
    | ok u => simp [executeCleanup, cleanupEntry, hl, hr]
    | error e => simp [executeCleanup, cleanupEntry, hl, hr]

theorem executeAllCleanups_ok (runners : Registry) (actions : List CleanupAction) :
    executeAllCleanups runners actions = Except.ok (actions.map (cleanupEntry runners)) := by
  induction actions with
  | nil => rfl
  | cons a tl ih =>
    simp only [executeAllCleanups, executeCleanup_ok, ih, List.map_cons]
    rfl

theorem cleanupEntry_action (runners : Registry) (a : CleanupAction) :
    (cleanupEntry runners a).action = a := by
  cases hl : lookupField runners a.type with
  | none => simp [cleanupEntry, hl]
  | some runner =>
    cases hr : runner a.params with
    | ok u => simp [cleanupEntry, hl, hr]
    | error e => simp [cleanupEntry, hl, hr]

/-! ## `load`: branch behaviour -/

theorem load_not_found (store : Store) (runners : Registry) (fileId : String) (now : Int)
    (h : fetchOne store fileId = none) :
    load store runners fileId now =
      Except.ok ⟨emptyCheckpoint fileId now, upsert store (emptyCheckpoint fileId now), []⟩ := by
  unfold load
  rw [h]
  rfl

theorem load_no_cleanup (store : Store) (runners : Registry) (fileId : String) (now : Int)
    (cp0 : Checkpoint) (h : fetchOne store fileId = some cp0) (hc : cp0.cleanup = []) :
    load store runners fileId now = Except.ok ⟨cp0, upsert store cp0, []⟩ := by
  unfold load
  rw [h]
  simp [hc]
  rfl

theorem load_recovery (store : Store) (runners : Registry) (fileId : String) (now : Int)
    (cp0 : Checkpoint) (h : fetchOne store fileId = some cp0) (hc : cp0.cleanup ≠ []) :
    load store runners fileId now =
      Except.ok ⟨{ cp0 with cleanup := [], startedAt := now, status := Status.running },
        upsert store { cp0 with cleanup := [], startedAt := now, status := Status.running },
        cp0.cleanup.map (cleanupEntry runners)⟩ := by
  unfold load
  rw [h]
  have hlen : ¬ cp0.cleanup.length = 0 := by
    intro hh
    exact hc (List.length_eq_zero.mp hh)
  simp only [Option.getD_some, if_neg hlen, executeAllCleanups_ok]
  rfl

/-! ## `sweep`: the go-pass -/

theorem sweepGo_spec (runners : Registry) (now : Int) : ∀ stale store,
    (stale.map Checkpoint.fileId).Nodup →
    ∃ st', sweepGo runners now store stale =
        Except.ok (st', stale.map Checkpoint.fileId,
          stale.map (fun cp => cp.cleanup.map (cleanupEntry runners))) ∧
      (∀ cp ∈ stale, lookupField st' cp.fileId =
        some (withStatus { cp with cleanup := [] } Status.failed now)) ∧
      (∀ k, k ∉ stale.map Checkpoint.fileId → lookupField st' k = lookupField store k) := by
  intro stale
  induction stale with
  | nil =>
    intro store _
    exact ⟨store, rfl, by simp, fun k _ => rfl⟩
  | cons cp tl ih =>
    intro store hnd
    simp only [List.map_cons, List.nodup_cons] at hnd
    obtain ⟨st', hgo, hmem, hpres⟩ := ih (upsert store (withStatus { cp with cleanup := [] }
      Status.failed now)) hnd.2
    refine ⟨st', ?_, ?_, ?_⟩
    · simp only [sweepGo, executeAllCleanups_ok, hgo]
      rfl
    · intro c hc
      rcases List.mem_cons.mp hc with hc | hc
      · subst hc
        rw [hpres c.fileId hnd.1]
        exact lookup_setField_self _ _ _
      · exact hmem c hc
    · intro k hk
      simp only [List.map_cons, List.mem_cons] at hk
      push_neg at hk
      rw [hpres k hk.2]
      exact lookup_setField_ne _ _ _ _ hk.1

theorem fetchStale_mem (store : Store) (now thresholdMs : Int) (cp : Checkpoint) :
    cp ∈ fetchStale store now thresholdMs ↔
      cp ∈ storeValues store ∧ cp.status = Status.running ∧
        cp.startedAt < now - thresholdMs := by
  simp [fetchStale, List.mem_filter, and_assoc]

theorem storeValues_ids (store : Store) (hwf : StoreWF store) :
    (storeValues store).map Checkpoint.fileId = store.map Prod.fst := by
  unfold storeValues
  rw [List.map_map]
  exact List.map_congr_left (fun p hp => hwf.2 p hp)

theorem fetchStale_ids_nodup (store : Store) (now thresholdMs : Int) (hwf : StoreWF store) :
    ((fetchStale store now thresholdMs).map Checkpoint.fileId).Nodup := by
  have hsub : (fetchStale store now thresholdMs).Sublist (storeValues store) :=
    List.filter_sublist _
  have := (hsub.map Checkpoint.fileId).nodup
  apply this
  rw [storeValues_ids store hwf]
  exact hwf.1

theorem fetchPendingCleanups_ids_nodup (store : Store) (hwf : StoreWF store) :
    ((fetchPendingCleanups store).map Checkpoint.fileId).Nodup := by
  have hsub : (fetchPendingCleanups store).Sublist (storeValues store) :=
    List.filter_sublist _
  have := (hsub.map Checkpoint.fileId).nodup
  apply this
  rw [storeValues_ids store hwf]
  exact hwf.1

theorem sweepAllGo_spec (runners : Registry) : ∀ pending store,
    (pending.map Checkpoint.fileId).Nodup →
    ∃ st', sweepAllGo runners store pending =
        Except.ok (st', pending.length,
          pending.map (fun cp => cp.cleanup.map (cleanupEntry runners))) ∧
      (∀ cp ∈ pending, lookupField st' cp.fileId = some { cp with cleanup := [] }) ∧
      (∀ k, k ∉ pending.map Checkpoint.fileId → lookupField st' k = lookupField store k) := by
  intro pending
  induction pending with
  | nil =>
    intro store _
    exact ⟨store, rfl, by simp, fun k _ => rfl⟩
  | cons cp tl ih =>
    intro store hnd
    simp only [List.map_cons, List.nodup_cons] at hnd
    obtain ⟨st', hgo, hmem, hpres⟩ := ih (upsert store { cp with cleanup := [] }) hnd.2
    refine ⟨st', ?_, ?_, ?_⟩
    · simp only [sweepAllGo, executeAllCleanups_ok, hgo]
      rfl
    · intro c hc
      rcases List.mem_cons.mp hc with hc | hc
      · subst hc
        rw [hpres c.fileId hnd.1]
        exact lookup_setField_self _ _ _
      · exact hmem c hc
    · intro k hk
      simp only [List.map_cons, List.mem_cons] at hk
      push_neg at hk
      rw [hpres k hk.2]
      exact lookup_setField_ne _ _ _ _ hk.1

/-! ## The claims -/

set_option maxRecDepth 40000 in
/-- C4: the fingerprint is canonical over object key order — for any two
well-formed values equal up to object key insertion order at any depth,
the fingerprints agree (determinism itself is inherent: `hash` is a
function of the value) — while arrays are order-sensitive: two arrays
that are permutations of one another can hash differently, witnessed at
`[1, 2]` vs `[2, 1]`. -/
theorem c4_fingerprint_canonicalization :
    (∀ a b, KeyEquiv a b → wfKeys a = true → wfKeys b = true → hash a = hash b) ∧
    (∃ xs ys : List JValue, xs.Perm ys ∧ xs ≠ ys ∧ hash (jarr xs) ≠ hash (jarr ys)) := by
  constructor
  · intro a b heq wa wb
    unfold hash
    rw [sortKeys_congr_of_keyEquiv a b heq wa wb]
  · refine ⟨[jnum 1, jnum 2], [jnum 2, jnum 1], List.Perm.swap (jnum 2) (jnum 1) [], ?_, ?_⟩
    · simp
    · decide

set_option maxRecDepth 40000 in
/-- C4, witnessed: the key-order half applied at a concrete pair of
two-field objects whose fields are swapped. -/
theorem c4_fingerprint_canonicalization_witness :
    hash (jobj [("b", jnum 2), ("a", jnum 1)]) = hash (jobj [("a", jnum 1), ("b", jnum 2)]) ∧
    wfKeys (jobj [("b", jnum 2), ("a", jnum 1)]) = true ∧
    wfKeys (jobj [("a", jnum 1), ("b", jnum 2)]) = true := by
  have hequiv : KeyEquiv (jobj [("b", jnum 2), ("a", jnum 1)])
      (jobj [("a", jnum 1), ("b", jnum 2)]) :=
    @KeyEquiv.obj [("b", jnum 2), ("a", jnum 1)] [("a", jnum 1), ("b", jnum 2)]
      [("b", jnum 2), ("a", jnum 1)] rfl
      (List.Forall₂.cons (KeyEquiv.num 2) (List.Forall₂.cons (KeyEquiv.num 1) List.Forall₂.nil))
      (List.Perm.swap ("a", jnum 1) ("b", jnum 2) [])
  exact ⟨c4_fingerprint_canonicalization.1 _ _ hequiv rfl rfl, rfl, rfl⟩

/-- C5: the cleanup executor is total and containing — it always
resolves, with exactly one trace entry per action in order, each entry a
pure function of that action alone (so no action's failure affects a
sibling); an action with no registered runner is skipped with a warning
naming the type; a rejecting runner's failure is caught into a logged
error message. -/
theorem c5_cleanup_executor_total (runners : Registry) (actions : List CleanupAction) :
    executeAllCleanups runners actions = Except.ok (actions.map (cleanupEntry runners)) ∧
    (∀ a, lookupField runners a.type = none →
      cleanupEntry runners a =
        ⟨a, CleanupOutcome.skipped ("⚠️ [" ++ a.type ++ "] no cleanup runner registered")⟩) ∧
    (∀ a runner, lookupField runners a.type = some runner →
      ∀ e, runner a.params = Except.error e →
        cleanupEntry runners a =
          ⟨a, CleanupOutcome.failed ("[" ++ a.type ++ "] cleanup failed: " ++ toString e)⟩) ∧
    (∀ a runner, lookupField runners a.type = some runner →
      ∀ u, runner a.params = Except.ok u →
        cleanupEntry runners a = ⟨a, CleanupOutcome.executed⟩) := by
  refine ⟨executeAllCleanups_ok runners actions, ?_, ?_, ?_⟩
  · intro a hl
    simp [cleanupEntry, hl]
  · intro a runner hl e he
    simp [cleanupEntry, hl, he]
  · intro a runner hl u hu
    simp [cleanupEntry, hl, hu]

/-- C5, witnessed: a registry whose only runner always throws, applied
to one action it covers and one it does not — the batch still resolves,
the uncovered action is skipped with the warning, the throwing action's
failure is contained into the logged message. -/
theorem c5_cleanup_executor_total_witness :
    executeAllCleanups [("boom", fun _ => Except.error "kaboom")]
        [⟨"i1", "delete_temp", [], 1⟩, ⟨"i2", "boom", [], 2⟩] =
      Except.ok ([⟨"i1", "delete_temp", [], 1⟩, ⟨"i2", "boom", [], 2⟩].map
        (cleanupEntry [("boom", fun _ => Except.error "kaboom")])) ∧
    cleanupEntry [("boom", fun _ => Except.error "kaboom")] ⟨"i1", "delete_temp", [], 1⟩ =
      ⟨⟨"i1", "delete_temp", [], 1⟩,
        CleanupOutcome.skipped "⚠️ [delete_temp] no cleanup runner registered"⟩ ∧
    cleanupEntry [("boom", fun _ => Except.error "kaboom")] ⟨"i2", "boom", [], 2⟩ =
      ⟨⟨"i2", "boom", [], 2⟩, CleanupOutcome.failed "[boom] cleanup failed: kaboom"⟩ := by
  refine ⟨(c5_cleanup_executor_total _ _).1, ?_, ?_⟩
  · exact (c5_cleanup_executor_total [("boom", fun _ => Except.error "kaboom")] []).2.1
      ⟨"i1", "delete_temp", [], 1⟩ rfl
  · exact (c5_cleanup_executor_total [("boom", fun _ => Except.error "kaboom")] []).2.2.1
      ⟨"i2", "boom", [], 2⟩ _ rfl "kaboom" rfl

/-- C7: the row encoding round-trips — decoding the encoded row restores
the checkpoint exactly (hence its run id, status, step results and
cleanup types/params), and the decoder accepts the already-structured
representation as well, producing the same checkpoint. -/
theorem c7_row_roundtrip (cp : Checkpoint) :
    rowToCheckpoint (checkpointToRow cp) = some cp ∧
    rowToCheckpoint
      { checkpointToRow cp with
        steps := JsonField.strukt cp.steps
        cleanup := JsonField.strukt cp.cleanup } = some cp :=
  ⟨rowToCheckpoint_checkpointToRow cp, rowToCheckpoint_structured cp⟩

/-- C1: step memoization — with a stored record whose hash matches the
inputs' fingerprint, Step resolves with the cached result, invoking
nothing and touching nothing; otherwise it invokes `fn`, persists
`withStep(cp, name, result, hash)`, adopts it, and resolves with the
fresh result; a second call with identical inputs on the adopted state
never re-invokes `fn` and returns the same result; and `checkCache` is a
hit exactly when a record exists whose stored hash equals the probe. -/
theorem c1_step_memoization (store : Store) (cp : Checkpoint) (name : String)
    (inputs fnResult fnResult2 : JValue) (now now2 : Int) :
    (∀ s, lookupField cp.steps name = some s → s.inputHash = hash inputs →
      durable store cp name inputs fnResult now = ⟨s.result, cp, cp, store, false, false⟩) ∧
    ((∀ s, lookupField cp.steps name = some s → s.inputHash ≠ hash inputs) →
      durable store cp name inputs fnResult now =
        ⟨fnResult, withStep cp name fnResult (hash inputs) now,
          withStep cp name fnResult (hash inputs) now,
          upsert store (withStep cp name fnResult (hash inputs) now), true, true⟩) ∧
    ((durable (durable store cp name inputs fnResult now).store
        (durable store cp name inputs fnResult now).adopted name inputs fnResult2
        now2).invokedFn = false ∧
      (durable (durable store cp name inputs fnResult now).store
        (durable store cp name inputs fnResult now).adopted name inputs fnResult2
        now2).result = (durable store cp name inputs fnResult now).result) ∧
    (∀ step h r, checkCache step h = CacheCheck.hit r ↔
      ∃ s, step = some s ∧ s.inputHash = h ∧ s.result = r) := by
  have hcache : ∀ step h r, checkCache step h = CacheCheck.hit r ↔
      ∃ s, step = some s ∧ s.inputHash = h ∧ s.result = r := by
    intro step h r
    cases step with
    | none => simp [checkCache]
    | some s =>
      by_cases hh : s.inputHash = h
      · simp [checkCache, hh]
      · simp [checkCache, hh]
  have hhit : ∀ s, lookupField cp.steps name = some s → s.inputHash = hash inputs →
      durable store cp name inputs fnResult now = ⟨s.result, cp, cp, store, false, false⟩ := by
    intro s hs hh
    simp [durable, hs, checkCache, hh]
  have hmiss : (∀ s, lookupField cp.steps name = some s → s.inputHash ≠ hash inputs) →
      durable store cp name inputs fnResult now =
        ⟨fnResult, withStep cp name fnResult (hash inputs) now,
          withStep cp name fnResult (hash inputs) now,
          upsert store (withStep cp name fnResult (hash inputs) now), true, true⟩ := by
    intro hm
    cases hl : lookupField cp.steps name with
    | none =>
      simp [durable, hl, checkCache, withStep, lookup_setField_self]
    | some s =>
      simp [durable, hl, checkCache, hm s hl, withStep, lookup_setField_self]
  refine ⟨hhit, hmiss, ?_, hcache⟩
  cases hl : lookupField cp.steps name with
  | none =>
    rw [hmiss (by intro s hs; rw [hl] at hs; exact absurd hs (by simp))]
    have hstep : lookupField (withStep cp name fnResult (hash inputs) now).steps name =
        some ⟨fnResult, hash inputs, now⟩ := by
      simp [withStep, lookup_setField_self]
    constructor
    · simp [durable, hstep, checkCache]
    · simp [durable, hstep, checkCache, withStep, lookup_setField_self]
  | some s =>
    by_cases hh : s.inputHash = hash inputs
    · rw [hhit s hl hh]
      constructor
      · simp [durable, hl, checkCache, hh]
      · simp [durable, hl, checkCache, hh]
    · rw [hmiss (by intro s' hs'; rw [hl] at hs'; cases hs'; exact hh)]
      have hstep : lookupField (withStep cp name fnResult (hash inputs) now).steps name =
          some ⟨fnResult, hash inputs, now⟩ := by
        simp [withStep, lookup_setField_self]
      constructor
      · simp [durable, hstep, checkCache]
      · simp [durable, hstep, checkCache, withStep, lookup_setField_self]

set_option maxRecDepth 40000 in
/-- C1, witnessed: a hit on a checkpoint whose stored record carries the
inputs' fingerprint, and a miss on a fresh checkpoint. -/
theorem c1_step_memoization_witness :
    durable [] ⟨"r", 0, none, Status.running,
        [("s", ⟨jbool true, hash (jstr "x"), 5⟩)], []⟩ "s" (jstr "x") jnull 7 =
      ⟨jbool true, ⟨"r", 0, none, Status.running,
        [("s", ⟨jbool true, hash (jstr "x"), 5⟩)], []⟩,
       ⟨"r", 0, none, Status.running, [("s", ⟨jbool true, hash (jstr "x"), 5⟩)], []⟩,
       [], false, false⟩ ∧
    durable [] ⟨"r2", 0, none, Status.running, [], []⟩ "s" (jstr "x") (jnum 9) 7 =
      ⟨jnum 9, withStep ⟨"r2", 0, none, Status.running, [], []⟩ "s" (jnum 9)
          (hash (jstr "x")) 7,
        withStep ⟨"r2", 0, none, Status.running, [], []⟩ "s" (jnum 9) (hash (jstr "x")) 7,
        upsert [] (withStep ⟨"r2", 0, none, Status.running, [], []⟩ "s" (jnum 9)
          (hash (jstr "x")) 7), true, true⟩ := by
  constructor
  · exact (c1_step_memoization [] ⟨"r", 0, none, Status.running,
      [("s", ⟨jbool true, hash (jstr "x"), 5⟩)], []⟩ "s" (jstr "x") jnull jnull 7 7).1
      ⟨jbool true, hash (jstr "x"), 5⟩ rfl rfl
  · exact (c1_step_memoization [] ⟨"r2", 0, none, Status.running, [], []⟩ "s" (jstr "x")
      (jnum 9) jnull 7 7).2.1 (by intro s hs; exact absurd hs (by simp [lookupField]))

/-- C10: on a cache hit Step performs no persist — the store is returned
untouched, no upsert happens, and both the returned and the adopted
checkpoint are the original value. -/
theorem c10_step_hit_no_persist (store : Store) (cp : Checkpoint) (name : String)
    (inputs fnResult : JValue) (now : Int) :
    ∀ s, lookupField cp.steps name = some s → s.inputHash = hash inputs →
      (durable store cp name inputs fnResult now).persisted = false ∧
      (durable store cp name inputs fnResult now).store = store ∧
      (durable store cp name inputs fnResult now).adopted = cp ∧
      (durable store cp name inputs fnResult now).cp = cp ∧
      (durable store cp name inputs fnResult now).result = s.result ∧
      (durable store cp name inputs fnResult now).invokedFn = false := by
  intro s hs hh
  simp [durable, hs, checkCache, hh]

set_option maxRecDepth 40000 in
/-- C10, witnessed: the hit case evaluated on a concrete store and
checkpoint — nothing is persisted. -/
theorem c10_step_hit_no_persist_witness :
    (durable [("q", ⟨"q", 0, none, Status.running, [], []⟩)]
      ⟨"q", 0, none, Status.running, [("t", ⟨jnum 4, hash (jarr []), 3⟩)], []⟩
      "t" (jarr []) jnull 9).persisted = false ∧
    (durable [("q", ⟨"q", 0, none, Status.running, [], []⟩)]
      ⟨"q", 0, none, Status.running, [("t", ⟨jnum 4, hash (jarr []), 3⟩)], []⟩
      "t" (jarr []) jnull 9).store = [("q", ⟨"q", 0, none, Status.running, [], []⟩)] := by
  have h := c10_step_hit_no_persist [("q", ⟨"q", 0, none, Status.running, [], []⟩)]
    ⟨"q", 0, none, Status.running, [("t", ⟨jnum 4, hash (jarr []), 3⟩)], []⟩
    "t" (jarr []) jnull 9 ⟨jnum 4, hash (jarr []), 3⟩ rfl rfl
  exact ⟨h.1, h.2.1⟩

/-- C2: Load fetches or creates; a fetched checkpoint with no pending
cleanup is persisted and returned as-is; a fetched checkpoint with
pending cleanup actions triggers the recovery pass — every pending
action is run through the executor exactly once (the trace lists each
action once, in order) — and the persisted, returned checkpoint has
`cleanup = []`, `startedAt = now`, `status = Running`; the sequencing of
the model makes the pass complete before `load` resolves. -/
theorem c2_load_crash_recovery (store : Store) (runners : Registry) (fileId : String)
    (now : Int) :
    (fetchOne store fileId = none →
      load store runners fileId now =
        Except.ok ⟨emptyCheckpoint fileId now, upsert store (emptyCheckpoint fileId now), []⟩ ∧
      (emptyCheckpoint fileId now).status = Status.running) ∧
    (∀ cp0, fetchOne store fileId = some cp0 → cp0.cleanup = [] →
      load store runners fileId now = Except.ok ⟨cp0, upsert store cp0, []⟩) ∧
    (∀ cp0, fetchOne store fileId = some cp0 → cp0.cleanup ≠ [] →
      load store runners fileId now =
        Except.ok ⟨{ cp0 with cleanup := [], startedAt := now, status := Status.running },
          upsert store { cp0 with cleanup := [], startedAt := now, status := Status.running },
          cp0.cleanup.map (cleanupEntry runners)⟩ ∧
      (cp0.cleanup.map (cleanupEntry runners)).map ExecEntry.action = cp0.cleanup) := by
  refine ⟨?_, ?_, ?_⟩
  · intro h
    exact ⟨load_not_found store runners fileId now h, rfl⟩
  · intro cp0 h hc
    exact load_no_cleanup store runners fileId now cp0 h hc
  · intro cp0 h hc
    refine ⟨load_recovery store runners fileId now cp0 h hc, ?_⟩
    rw [List.map_map]
    have hcomp : ∀ a ∈ cp0.cleanup, (ExecEntry.action ∘ cleanupEntry runners) a = id a :=
      fun a _ => cleanupEntry_action runners a
    rw [List.map_congr_left hcomp]
    exact List.map_id _

/-- C2, witnessed: a crash-recovery pass over a stored checkpoint with
one pending `delete_temp` action (registry empty, so the action is
attempted and skipped — still exactly one trace entry). -/
theorem c2_load_crash_recovery_witness :
    load [("f1", ⟨"f1", 100, none, Status.running, [],
        [⟨"a1", "delete_temp", [("path", jstr "/tmp")], 90⟩]⟩)] [] "f1" 500 =
      Except.ok ⟨⟨"f1", 500, none, Status.running, [], []⟩,
        upsert [("f1", ⟨"f1", 100, none, Status.running, [],
          [⟨"a1", "delete_temp", [("path", jstr "/tmp")], 90⟩]⟩)]
          ⟨"f1", 500, none, Status.running, [], []⟩,
        [⟨"a1", "delete_temp", [("path", jstr "/tmp")], 90⟩].map (cleanupEntry [])⟩ ∧
    ([⟨"a1", "delete_temp", [("path", jstr "/tmp")], 90⟩].map (cleanupEntry [])).map
      ExecEntry.action = [⟨"a1", "delete_temp", [("path", jstr "/tmp")], 90⟩] :=
  (c2_load_crash_recovery [("f1", ⟨"f1", 100, none, Status.running, [],
      [⟨"a1", "delete_temp", [("path", jstr "/tmp")], 90⟩]⟩)] [] "f1" 500).2.2
    ⟨"f1", 100, none, Status.running, [], [⟨"a1", "delete_temp", [("path", jstr "/tmp")], 90⟩]⟩
    rfl (by simp)

/-- C3, refuted: the crash-recovery path of Load violates the invariant
`status == Running ⇒ completedAt == null` — recovering a terminal
checkpoint that still has pending cleanup (reachable via
`beforeRisky` followed by `fail`) yields a Running checkpoint whose
`completedAt` is the old completion time, because the recovery object
spread resets `cleanup`, `startedAt` and `status` but not
`completedAt`. -/
theorem c3_status_invariant_counterexample :
    ∃ res, load [("r", ⟨"r", 1000, some 500, Status.failed, [],
        [⟨"a1", "delete_temp", [], 900⟩]⟩)] [] "r" 2000 = Except.ok res ∧
      res.cp.status = Status.running ∧ res.cp.completedAt = some 500 ∧
      ¬ statusInvariant res.cp := by
  refine ⟨_, rfl, rfl, rfl, fun hinv => Option.noConfusion (hinv rfl)⟩

/-- C3, amended: every pure transform establishes or preserves
`status == Running ⇒ completedAt == null`, `withStatus` stamps the
transition time on any non-Running status, and every orchestration call
preserves the invariant — Step in both branches, Complete/Fail
establishing it outright, BeforeRisky/AfterSafe/ClearStep untouched,
Sweep persisting the invariant-satisfying Failed shape, and
SweepAllCleanups persisting exactly `{cp with cleanup := []}` for each
fetched checkpoint, which leaves status and completion time untouched —
except Load's crash-recovery, which sets `status = Running` while
leaving `completedAt` unchanged, so its result satisfies the invariant
only when the recovered checkpoint's `completedAt` was null. -/
theorem c3_status_invariant_amended :
    (∀ fileId now, statusInvariant (emptyCheckpoint fileId now)) ∧
    (∀ cp st now, statusInvariant (withStatus cp st now) ∧
      (st ≠ Status.running → (withStatus cp st now).completedAt = some now)) ∧
    (∀ cp name r h now, statusInvariant cp → statusInvariant (withStep cp name r h now)) ∧
    (∀ cp name, statusInvariant cp → statusInvariant (withoutStep cp name)) ∧
    (∀ cp a uuid now, statusInvariant cp → statusInvariant (withCleanup cp a uuid now)) ∧
    (∀ cp t, statusInvariant cp → statusInvariant (withoutCleanup cp t)) ∧
    (∀ store cp name inputs fnR now, statusInvariant cp →
      statusInvariant (durable store cp name inputs fnR now).cp ∧
      statusInvariant (durable store cp name inputs fnR now).adopted) ∧
    (∀ store cp now, statusInvariant (complete store cp now).cp ∧
      statusInvariant (fail store cp now).cp) ∧
    (∀ store cp t p uuid now, statusInvariant cp →
      statusInvariant (beforeRisky store cp t p uuid now).cp) ∧
    (∀ store cp t, statusInvariant cp → statusInvariant (afterSafe store cp t).cp) ∧
    (∀ store cp name, statusInvariant cp → statusInvariant (clearStep store cp name).cp) ∧
    (∀ (cp : Checkpoint) (now : Int),
      statusInvariant (withStatus { cp with cleanup := [] } Status.failed now)) ∧
    (∀ store runners, StoreWF store →
      ∃ st', sweepAllCleanups store runners =
          Except.ok (st', (fetchPendingCleanups store).length,
            (fetchPendingCleanups store).map (fun cp => cp.cleanup.map (cleanupEntry runners))) ∧
        ∀ cp ∈ fetchPendingCleanups store,
          lookupField st' cp.fileId = some { cp with cleanup := [] } ∧
          (statusInvariant cp → statusInvariant { cp with cleanup := [] })) ∧
    (∀ store runners fileId now res, load store runners fileId now = Except.ok res →
      (∀ cp0, fetchOne store fileId = some cp0 → statusInvariant cp0 ∧
        (cp0.cleanup ≠ [] → cp0.completedAt = none)) →
      statusInvariant res.cp) := by
  refine ⟨?_, ?_, ?_, ?_, ?_, ?_, ?_, ?_, ?_, ?_, ?_, ?_, ?_, ?_⟩
  · intro fileId now
    intro h
    rfl
  · intro cp st now
    constructor
    · intro h
      simp only [withStatus] at h ⊢
      simp [h]
    · intro h
      simp [withStatus, h]
  · intro cp name r h now hinv
    exact hinv
  · intro cp name hinv
    exact hinv
  · intro cp a uuid now hinv
    exact hinv
  · intro cp t hinv
    exact hinv
  · intro store cp name inputs fnR now hinv
    cases hcc : checkCache (lookupField cp.steps name) (hash inputs) with
    | hit r => constructor <;> (simp only [durable, hcc]; exact hinv)
    | miss => constructor <;> (simp only [durable, hcc]; exact hinv)
  · intro store cp now
    constructor <;> (intro h; simp only [complete, fail, withStatus] at h ⊢; simp at h)
  · intro store cp t p uuid now hinv
    exact hinv
  · intro store cp t hinv
    exact hinv
  · intro store cp name hinv
    exact hinv
  · intro cp now
    intro h
    simp only [withStatus] at h
    simp at h
  · intro store runners hwf
    obtain ⟨st', hgo, hmem, _⟩ := sweepAllGo_spec runners (fetchPendingCleanups store) store
      (fetchPendingCleanups_ids_nodup store hwf)
    refine ⟨st', ?_, ?_⟩
    · show sweepAllGo runners store (fetchPendingCleanups store) = _
      exact hgo
    · intro cp hcp
      exact ⟨hmem cp hcp, fun hinv => hinv⟩
  · intro store runners fileId now res hload hfetch
    cases hf : fetchOne store fileId with
    | none =>
      rw [load_not_found store runners fileId now hf] at hload
      rw [Except.ok.injEq] at hload
      subst hload
      intro h
      rfl
    | some cp0 =>
      obtain ⟨hinv0, hccl⟩ := hfetch cp0 hf
      by_cases hc : cp0.cleanup = []
      · rw [load_no_cleanup store runners fileId now cp0 hf hc] at hload
        rw [Except.ok.injEq] at hload
        subst hload
        exact hinv0
      · rw [load_recovery store runners fileId now cp0 hf hc] at hload
        rw [Except.ok.injEq] at hload
        subst hload
        intro h
        exact hccl hc

/-- C3, witnessed: the amended Load clause applied to a store holding a
Running checkpoint (invariant-satisfying, null `completedAt`) with one
pending cleanup action. -/
theorem c3_status_invariant_amended_witness :
    statusInvariant ({ (⟨"r", 1000, none, Status.running, [],
        [⟨"a1", "delete_temp", [], 900⟩]⟩ : Checkpoint) with
      cleanup := ([] : List CleanupAction), startedAt := (2000 : Int),
      status := Status.running } : Checkpoint) := by
  have hload := load_recovery
    [("r", ⟨"r", 1000, none, Status.running, [], [⟨"a1", "delete_temp", [], 900⟩]⟩)] [] "r" 2000
    ⟨"r", 1000, none, Status.running, [], [⟨"a1", "delete_temp", [], 900⟩]⟩ rfl (by simp)
  exact c3_status_invariant_amended.2.2.2.2.2.2.2.2.2.2.2.2.2
    [("r", ⟨"r", 1000, none, Status.running, [], [⟨"a1", "delete_temp", [], 900⟩]⟩)] [] "r" 2000
    _ hload
    (by
      intro cp0 h0
      rw [show fetchOne [("r", (⟨"r", 1000, none, Status.running, [],
        [⟨"a1", "delete_temp", [], 900⟩]⟩ : Checkpoint))] "r" =
        some ⟨"r", 1000, none, Status.running, [], [⟨"a1", "delete_temp", [], 900⟩]⟩
        from rfl, Option.some.injEq] at h0
      subst h0
      exact ⟨fun _ => rfl, fun _ => rfl⟩)

/-- C6: sweep reaps exactly the stale Running checkpoints — for each,
its pending cleanup actions are all executed (one trace entry per
action, in order) and it is persisted with `cleanup = []`,
`status = Failed` and `completedAt` stamped; `cleaned` counts the stale
checkpoints and `details` lists their run ids. -/
theorem c6_sweep_reaping (store : Store) (runners : Registry) (thresholdMs now : Int)
    (hwf : StoreWF store) :
    ∃ res, sweep store runners thresholdMs now = Except.ok res ∧
      res.cleaned = (fetchStale store now thresholdMs).length ∧
      res.details = (fetchStale store now thresholdMs).map Checkpoint.fileId ∧
      res.logs = (fetchStale store now thresholdMs).map
        (fun cp => cp.cleanup.map (cleanupEntry runners)) ∧
      ∀ cp ∈ fetchStale store now thresholdMs,
        cp.status = Status.running ∧ cp.startedAt < now - thresholdMs ∧
        lookupField res.store cp.fileId =
          some (withStatus { cp with cleanup := [] } Status.failed now) ∧
        (withStatus { cp with cleanup := [] } Status.failed now).cleanup = [] ∧
        (withStatus { cp with cleanup := [] } Status.failed now).status = Status.failed ∧
        (withStatus { cp with cleanup := [] } Status.failed now).completedAt = some now := by
  obtain ⟨st', hgo, hmem, _⟩ := sweepGo_spec runners now (fetchStale store now thresholdMs)
    store (fetchStale_ids_nodup store now thresholdMs hwf)
  refine ⟨⟨(fetchStale store now thresholdMs).length,
    (fetchStale store now thresholdMs).map Checkpoint.fileId, st',
    (fetchStale store now thresholdMs).map (fun cp => cp.cleanup.map (cleanupEntry runners))⟩,
    ?_, rfl, rfl, rfl, ?_⟩
  · have hsweep : sweep store runners thresholdMs now =
        (sweepGo runners now store (fetchStale store now thresholdMs)).bind
          (fun r => Except.ok ⟨r.2.1.length, r.2.1, r.1, r.2.2⟩) := rfl
    rw [hsweep, hgo]
    show Except.ok _ = Except.ok _
    rw [Except.ok.injEq]
    rw [List.length_map]
  · intro cp hcp
    have hm := (fetchStale_mem store now thresholdMs cp).mp hcp
    exact ⟨hm.2.1, hm.2.2, hmem cp hcp, rfl, rfl, rfl⟩

/-- C6, witnessed: a store with one stale Running checkpoint carrying
one pending action, swept at a threshold it exceeds. -/
theorem c6_sweep_reaping_witness :
    ∃ res, sweep [("r", ⟨"r", 100, none, Status.running, [],
        [⟨"a1", "delete_temp", [], 90⟩]⟩)] [] 10 1000 = Except.ok res ∧
      res.cleaned = (fetchStale [("r", ⟨"r", 100, none, Status.running, [],
        [⟨"a1", "delete_temp", [], 90⟩]⟩)] 1000 10).length ∧
      res.details = (fetchStale [("r", ⟨"r", 100, none, Status.running, [],
        [⟨"a1", "delete_temp", [], 90⟩]⟩)] 1000 10).map Checkpoint.fileId ∧
      res.logs = (fetchStale [("r", ⟨"r", 100, none, Status.running, [],
        [⟨"a1", "delete_temp", [], 90⟩]⟩)] 1000 10).map
        (fun cp => cp.cleanup.map (cleanupEntry [])) ∧
      ∀ cp ∈ fetchStale [("r", ⟨"r", 100, none, Status.running, [],
        [⟨"a1", "delete_temp", [], 90⟩]⟩)] 1000 10,
        cp.status = Status.running ∧ cp.startedAt < 1000 - 10 ∧
        lookupField res.store cp.fileId =
          some (withStatus { cp with cleanup := [] } Status.failed 1000) ∧
        (withStatus { cp with cleanup := [] } Status.failed 1000).cleanup = [] ∧
        (withStatus { cp with cleanup := [] } Status.failed 1000).status = Status.failed ∧
        (withStatus { cp with cleanup := [] } Status.failed 1000).completedAt = some 1000 :=
  c6_sweep_reaping [("r", ⟨"r", 100, none, Status.running, [], [⟨"a1", "delete_temp", [], 90⟩]⟩)]
    [] 10 1000
    ⟨by simp, by
      intro p hp
      rw [List.mem_singleton] at hp
      subst hp
      rfl⟩

/-- C8, refuted: `complete` does not guard terminal states — invoked on
a Failed checkpoint it persists `status = Completed`, a
`Failed → Completed` transition the state machine does not allow. -/
theorem c8_terminal_statuses_counterexample :
    (complete [] ⟨"r", 0, some 1, Status.failed, [], []⟩ 5).cp.status = Status.completed ∧
    ¬ allowedTransition Status.failed Status.completed := by
  refine ⟨rfl, ?_⟩
  intro h
  rcases h with h | ⟨h1, _⟩
  · exact Status.noConfusion h
  · exact Status.noConfusion h1

/-- C8, amended: Step, BeforeRisky, AfterSafe and ClearStep preserve the
status; Sweep only reaps checkpoints fetched as Running, moving them to
Failed (an allowed transition); no user-invoked operation ever sets
`status = Running` (only Load's recovery does); but Complete and Fail
set their terminal status unconditionally — nothing guards a terminal
input, so `Failed → Completed` and `Completed → Failed` are possible. -/
theorem c8_terminal_statuses_amended :
    (∀ store cp name inputs fnR now,
      (durable store cp name inputs fnR now).cp.status = cp.status ∧
      (durable store cp name inputs fnR now).adopted.status = cp.status) ∧
    (∀ store cp t p uuid now, (beforeRisky store cp t p uuid now).cp.status = cp.status) ∧
    (∀ store cp t, (afterSafe store cp t).cp.status = cp.status) ∧
    (∀ store cp name, (clearStep store cp name).cp.status = cp.status) ∧
    (∀ store cp now, (complete store cp now).cp.status = Status.completed ∧
      (fail store cp now).cp.status = Status.failed ∧
      (complete store cp now).cp.status ≠ Status.running ∧
      (fail store cp now).cp.status ≠ Status.running) ∧
    (∀ store now t, ∀ cp ∈ fetchStale store now t, cp.status = Status.running ∧
      allowedTransition cp.status Status.failed) ∧
    (∀ (cp : Checkpoint) (now : Int),
      (withStatus { cp with cleanup := [] } Status.failed now).status = Status.failed) := by
  refine ⟨?_, ?_, ?_, ?_, ?_, ?_, ?_⟩
  · intro store cp name inputs fnR now
    cases hcc : checkCache (lookupField cp.steps name) (hash inputs) with
    | hit r => constructor <;> simp [durable, hcc]
    | miss => constructor <;> simp [durable, hcc, withStep]
  · intro store cp t p uuid now
    rfl
  · intro store cp t
    rfl
  · intro store cp name
    rfl
  · intro store cp now
    exact ⟨rfl, rfl, fun h => Status.noConfusion h, fun h => Status.noConfusion h⟩
  · intro store now t cp hcp
    have hm := (fetchStale_mem store now t cp).mp hcp
    refine ⟨hm.2.1, Or.inr ⟨hm.2.1, Or.inr rfl⟩⟩
  · intro cp now
    rfl

/-- C8, witnessed: the Sweep clause applied to a store whose single
checkpoint is stale and Running. -/
theorem c8_terminal_statuses_amended_witness :
    (⟨"r", 100, none, Status.running, [], []⟩ : Checkpoint).status = Status.running ∧
    allowedTransition (⟨"r", 100, none, Status.running, [], []⟩ : Checkpoint).status
      Status.failed :=
  c8_terminal_statuses_amended.2.2.2.2.2.1
    [("r", ⟨"r", 100, none, Status.running, [], []⟩)] 1000 10
    ⟨"r", 100, none, Status.running, [], []⟩
    (by
      rw [show fetchStale [("r", (⟨"r", 100, none, Status.running, [], []⟩ : Checkpoint))]
        1000 10 = [⟨"r", 100, none, Status.running, [], []⟩] from rfl]
      exact List.Mem.head [])

/-- C9, refuted: the orchestration calls do alter the caller's
checkpoint in place — `durable` on a miss `Object.assign`s the updated
checkpoint onto `cp`, so after the call the caller's binding differs
structurally from its value before the call. -/
theorem c9_purity_counterexample :
    (durable [] ⟨"r", 0, none, Status.running, [], []⟩ "s" jnull (jbool true) 3).adopted ≠
      ⟨"r", 0, none, Status.running, [], []⟩ := by
  intro h
  have hsteps := congrArg Checkpoint.steps h
  rw [show (durable [] ⟨"r", 0, none, Status.running, [], []⟩ "s" jnull
      (jbool true) 3).adopted.steps = [("s", ⟨jbool true, hash jnull, 3⟩)] from rfl] at hsteps
  exact List.noConfusion hsteps

/-- C9, amended: the five checkpoint transforms are pure value-to-value
functions, each deriving a new checkpoint that differs from its input
only in the edited field; the orchestration calls return that new value
but `durable` (on a miss), `beforeRisky`, `afterSafe` and `clearStep`
additionally `Object.assign` it onto the caller's `cp`, whose binding
then holds exactly the returned checkpoint; only a `durable` cache hit,
`complete` and `fail` leave the caller's value untouched. -/
theorem c9_purity_amended :
    (∀ cp name r h now, (withStep cp name r h now).fileId = cp.fileId ∧
      (withStep cp name r h now).startedAt = cp.startedAt ∧
      (withStep cp name r h now).completedAt = cp.completedAt ∧
      (withStep cp name r h now).status = cp.status ∧
      (withStep cp name r h now).cleanup = cp.cleanup) ∧
    (∀ cp name, (withoutStep cp name).fileId = cp.fileId ∧
      (withoutStep cp name).startedAt = cp.startedAt ∧
      (withoutStep cp name).completedAt = cp.completedAt ∧
      (withoutStep cp name).status = cp.status ∧
      (withoutStep cp name).cleanup = cp.cleanup) ∧
    (∀ cp a uuid now, (withCleanup cp a uuid now).fileId = cp.fileId ∧
      (withCleanup cp a uuid now).startedAt = cp.startedAt ∧
      (withCleanup cp a uuid now).completedAt = cp.completedAt ∧
      (withCleanup cp a uuid now).status = cp.status ∧
      (withCleanup cp a uuid now).steps = cp.steps) ∧
    (∀ cp t, (withoutCleanup cp t).fileId = cp.fileId ∧
      (withoutCleanup cp t).startedAt = cp.startedAt ∧
      (withoutCleanup cp t).completedAt = cp.completedAt ∧
      (withoutCleanup cp t).status = cp.status ∧
      (withoutCleanup cp t).steps = cp.steps) ∧
    (∀ cp st now, (withStatus cp st now).fileId = cp.fileId ∧
      (withStatus cp st now).startedAt = cp.startedAt ∧
      (withStatus cp st now).steps = cp.steps ∧
      (withStatus cp st now).cleanup = cp.cleanup) ∧
    (∀ store cp t p uuid now,
      (beforeRisky store cp t p uuid now).adopted = (beforeRisky store cp t p uuid now).cp) ∧
    (∀ store cp t, (afterSafe store cp t).adopted = (afterSafe store cp t).cp) ∧
    (∀ store cp name, (clearStep store cp name).adopted = (clearStep store cp name).cp) ∧
    (∀ store cp name inputs fnR now,
      (durable store cp name inputs fnR now).adopted = (durable store cp name inputs fnR now).cp) ∧
    (∀ store cp name inputs fnR now s, lookupField cp.steps name = some s →
      s.inputHash = hash inputs → (durable store cp name inputs fnR now).adopted = cp) ∧
    (∀ store cp now, (complete store cp now).adopted = cp ∧ (fail store cp now).adopted = cp) := by
  refine ⟨fun cp name r h now => ⟨rfl, rfl, rfl, rfl, rfl⟩,
    fun cp name => ⟨rfl, rfl, rfl, rfl, rfl⟩,
    fun cp a uuid now => ⟨rfl, rfl, rfl, rfl, rfl⟩,
    fun cp t => ⟨rfl, rfl, rfl, rfl, rfl⟩,
    fun cp st now => ⟨rfl, rfl, rfl, rfl⟩,
    fun store cp t p uuid now => rfl,
    fun store cp t => rfl,
    fun store cp name => rfl,
    ?_, ?_,
    fun store cp now => ⟨rfl, rfl⟩⟩
  · intro store cp name inputs fnR now
    cases hcc : checkCache (lookupField cp.steps name) (hash inputs) with
    | hit r => simp [durable, hcc]
    | miss => simp [durable, hcc]
  · intro store cp name inputs fnR now s hs hh
    simp [durable, hs, checkCache, hh]

set_option maxRecDepth 40000 in
/-- C9, witnessed: the durable hit clause applied at a concrete matching
record — the caller's checkpoint is untouched. -/
theorem c9_purity_amended_witness :
    (durable [] ⟨"w", 0, none, Status.running,
        [("u", ⟨jnull, hash (jbool false), 2⟩)], []⟩ "u" (jbool false) jnull 8).adopted =
      ⟨"w", 0, none, Status.running, [("u", ⟨jnull, hash (jbool false), 2⟩)], []⟩ :=
  c9_purity_amended.2.2.2.2.2.2.2.2.2.1
    [] ⟨"w", 0, none, Status.running, [("u", ⟨jnull, hash (jbool false), 2⟩)], []⟩
    "u" (jbool false) jnull 8 ⟨jnull, hash (jbool false), 2⟩ rfl rfl

end DurableX
